import Mathlib

/-!
A verification development for the ralph-desktop loop engine and its CLI
adapter layer.  Rust sources under `src-tauri/src` are shallowly embedded:
pure functions become Lean functions, the event-emitting engine becomes an
explicit interpreter over an environment of oracle inputs, and file-system
state becomes explicit state passing.
-/

namespace Ralph

/-- Mirrors `storage::models::CliType` (extended with the `opencode` variant
referenced by `adapters::get_adapter`). -/
inductive CliType
  | claude
  | codex
  | opencode
deriving DecidableEq, Repr

/-- Mirrors `adapters::LineType`. -/
inductive LineType
  | text
  | json
  | error
deriving DecidableEq, Repr

/-- Mirrors `adapters::ParsedLine`. -/
structure ParsedLine where
  content : String
  lineType : LineType
  isAssistant : Bool
deriving DecidableEq, Repr

/-- Rust `str::contains` (substring test), via lists of characters. -/
def strContains (hay needle : String) : Bool :=
  decide (needle.toList <:+: hay.toList)

/-- A parsed `serde_json::Value`, as navigated by `CodexAdapter::parse_output_line`. -/
inductive Json
  | null
  | jbool (b : Bool)
  | jnum (n : Int)
  | jstr (s : String)
  | jarr (elems : List Json)
  | jobj (fields : List (String × Json))

/-- `serde_json::Value::get` on an object (first field with the key). -/
def Json.get : Json → String → Option Json
  | .jobj fields, key => fields.lookup key
  | _, _ => none

/-- `serde_json::Value::as_str`. -/
def Json.asStr : Json → Option String
  | .jstr s => some s
  | _ => none

/-- Result of `serde_json::from_str::<StreamJsonLine>` on one line of Claude
output: `parsed` carries the three optional fields (`type`, `content`, `role`)
of a successfully parsed line, `unparsed` is a line that failed JSON parsing. -/
inductive ClaudeLine
  | parsed (msgType : Option String) (content : Option String) (role : Option String)
  | unparsed (raw : String)

/-- Result of `serde_json::from_str::<Value>` on one line of Codex output:
`jsonLine` keeps both the raw text and the parsed value, `notJson` is a line
that failed JSON parsing. -/
inductive CodexLine
  | jsonLine (raw : String) (v : Json)
  | notJson (raw : String)

/-- Mirrors `ClaudeCodeAdapter::detect_completion`: iterate over the (already
line-split and parse-attempted) lines; only a successfully parsed line whose
`role` is `assistant` and whose `content` contains the signal yields `true`. -/
def claudeDetectCompletion (lines : List ClaudeLine) (signal : String) : Bool :=
  lines.any fun l =>
    match l with
    | .parsed _ content role =>
        decide (role = some "assistant") &&
          (match content with
           | some c => strContains c signal
           | none => false)
    | .unparsed _ => false

/-- Mirrors `CodexAdapter::detect_completion`: a plain substring test on the
whole output. -/
def codexDetectCompletion (output signal : String) : Bool :=
  strContains output signal

/-- Mirrors `ClaudeCodeAdapter::parse_output_line`. -/
def claudeParseOutputLine : ClaudeLine → ParsedLine
  | .parsed _ content role =>
      { content := content.getD ""
        lineType := .json
        isAssistant := decide (role = some "assistant") }
  | .unparsed raw =>
      { content := raw, lineType := .text, isAssistant := false }

/-- Mirrors `CodexAdapter::parse_output_line`. -/
def codexParseOutputLine : CodexLine → ParsedLine
  | .jsonLine raw v =>
      let eventType := ((v.get "type").bind Json.asStr).getD ""
      if eventType = "item.completed" then
        match v.get "item" with
        | some item =>
            let itemType := ((item.get "type").bind Json.asStr).getD ""
            if itemType = "agent_message" then
              match (item.get "text").bind Json.asStr with
              | some text => { content := text, lineType := .json, isAssistant := true }
              | none => { content := "", lineType := .json, isAssistant := false }
            else
              { content := "", lineType := .json, isAssistant := false }
        | none => { content := "", lineType := .json, isAssistant := false }
      else if eventType = "thread.started" ∨ eventType = "turn.started" ∨
          eventType = "turn.completed" ∨ eventType = "item.delta" then
        { content := "", lineType := .json, isAssistant := false }
      else
        { content := raw, lineType := .text, isAssistant := true }
  | .notJson raw =>
      { content := raw, lineType := .text, isAssistant := true }

/-- The default completion signal (`storage::models::TaskConfig::default`). -/
def defaultSignal : String := "<done>COMPLETE</done>"

/-- A Codex JSONL control event whose only occurrence of the completion signal
is in a non-assistant field; `codexControlJson` is its JSON parse. -/
def codexControlLine : String :=
  "\x7b\"type\":\"turn.started\",\"note\":\"<done>COMPLETE</done>\"\x7d"

/-- The `serde_json` parse of `codexControlLine`. -/
def codexControlJson : Json :=
  .jobj [("type", .jstr "turn.started"), ("note", .jstr "<done>COMPLETE</done>")]

/-- Claim C3, counterexample: for the Codex adapter, `detect_completion` is not
a JSON-aware search of assistant content.  On a JSONL control event the
adapter's own `parse_output_line` attributes no assistant content to the line
(content `""`, `is_assistant = false`), so the signal occurs only outside
assistant content, yet `detect_completion` returns `true` because it is a raw
substring test on the whole output. -/
theorem c3_counterexample :
    codexParseOutputLine (.jsonLine codexControlLine codexControlJson) =
      { content := "", lineType := .json, isAssistant := false } ∧
    codexDetectCompletion codexControlLine defaultSignal = true := by
  constructor
  · rfl
  · decide

/-- Claim C3, amended: `detect_completion` of the Claude adapter parses each
line and searches the signal only within assistant `content` fields (it
returns `true` exactly when some parsed line has `role = "assistant"` and a
`content` containing the signal), while `detect_completion` of the Codex
adapter — like a plain-text adapter — is a substring test on the whole
output. -/
theorem c3_amended :
    (∀ (lines : List ClaudeLine) (signal : String),
      claudeDetectCompletion lines signal = true ↔
        ∃ mt c, ClaudeLine.parsed mt (some c) (some "assistant") ∈ lines ∧
          strContains c signal = true) ∧
    (∀ output signal, codexDetectCompletion output signal = strContains output signal) := by
  constructor
  · intro lines signal
    rw [claudeDetectCompletion, List.any_eq_true]
    constructor
    · rintro ⟨l, hl, hp⟩
      match l with
      | .parsed mt content role =>
          simp only [Bool.and_eq_true, decide_eq_true_eq] at hp
          obtain ⟨hrole, hc⟩ := hp
          match content with
          | some c => exact ⟨mt, c, by rw [hrole] at hl; exact hl, hc⟩
          | none => exact absurd hc (by simp)
      | .unparsed raw => exact absurd hp (by simp)
    · rintro ⟨mt, c, hmem, hc⟩
      refine ⟨ClaudeLine.parsed mt (some c) (some "assistant"), hmem, ?_⟩
      simp [hc]
  · intro output signal
    rfl

/-- A line that fails JSON parsing and contains the completion signal. -/
def codexNoiseLine : String := "oops <done>COMPLETE</done>"

/-- Claim C4, counterexample: for the Codex adapter, a line that fails JSON
parsing is returned as `Text` with `is_assistant = true` (not `false` as the
claim states), and therefore it does trip the engine's completion check
`parsed.is_assistant && parsed.content.contains(signal)`. -/
theorem c4_counterexample :
    codexParseOutputLine (.notJson codexNoiseLine) =
      { content := codexNoiseLine, lineType := .text, isAssistant := true } ∧
    ((codexParseOutputLine (.notJson codexNoiseLine)).isAssistant &&
      strContains (codexParseOutputLine (.notJson codexNoiseLine)).content defaultSignal) = true := by
  constructor
  · rfl
  · decide

/-- Claim C4, amended: only the Claude adapter returns a JSON-parse-failure
line as `Text` with `is_assistant = false` (so such a line can never trip the
engine's completion check); the Codex adapter's fallback for a line that fails
JSON parsing is `Text` with `is_assistant = true`. -/
theorem c4_amended :
    (∀ s, claudeParseOutputLine (.unparsed s) =
      { content := s, lineType := .text, isAssistant := false }) ∧
    (∀ s signal, ((claudeParseOutputLine (.unparsed s)).isAssistant &&
      strContains (claudeParseOutputLine (.unparsed s)).content signal) = false) ∧
    (∀ s, codexParseOutputLine (.notJson s) =
      { content := s, lineType := .text, isAssistant := true }) := by
  exact ⟨fun s => rfl, fun s signal => rfl, fun s => rfl⟩

/-! ### Storage: global config (`storage/mod.rs`, `storage/models.rs`) -/

/-- Mirrors `storage::models::Theme`. -/
inductive Theme
  | light
  | dark
  | system
deriving DecidableEq, Repr

/-- Mirrors `storage::models::GlobalConfig`.  `DateTime<Utc>` is abstracted as
an integer timestamp. -/
structure GlobalConfig where
  version : String
  defaultCli : CliType
  defaultMaxIterations : ℕ
  maxConcurrentProjects : ℕ
  iterationTimeoutMs : ℕ
  idleTimeoutMs : ℕ
  theme : Theme
  logRetentionDays : ℕ
  permissionsConfirmed : Bool
  permissionsConfirmedAt : Option Int
deriving DecidableEq, Repr

/-- Mirrors `impl Default for GlobalConfig`. -/
def GlobalConfig.default : GlobalConfig where
  version := "1.0.0"
  defaultCli := .claude
  defaultMaxIterations := 50
  maxConcurrentProjects := 3
  iterationTimeoutMs := 600000
  idleTimeoutMs := 120000
  theme := .system
  logRetentionDays := 7
  permissionsConfirmed := false
  permissionsConfirmedAt := none

/-- Content of `config.json`: `none` when the file does not exist.
Serialization is modeled as the identity, since `serde_json` round-trips
`GlobalConfig` losslessly. -/
abbrev ConfigStore := Option GlobalConfig

/-- Mirrors `storage::save_config`: writes the config to `config.json`. -/
def save_config (c : GlobalConfig) (_st : ConfigStore) : ConfigStore :=
  some c

/-- Mirrors `storage::load_config`: returns the loaded config together with
the resulting content of `config.json`.  A missing file is populated with the
default config (no migration applied); an existing file has the legacy
sentinel timeouts 600000/120000 normalized to 0 and, when a normalization
applied, the normalized config is written back. -/
def load_config : ConfigStore → GlobalConfig × ConfigStore
  | none =>
      (GlobalConfig.default, save_config GlobalConfig.default none)
  | some c0 =>
      let upd1 := c0.iterationTimeoutMs == 600000
      let c1 := if upd1 then { c0 with iterationTimeoutMs := 0 } else c0
      let upd2 := c1.idleTimeoutMs == 120000
      let c2 := if upd2 then { c1 with idleTimeoutMs := 0 } else c1
      if upd1 || upd2 then (c2, save_config c2 (some c0)) else (c2, some c0)

/-- The timeout normalization that `load_config` applies to a stored config. -/
def normalizeTimeouts (c : GlobalConfig) : GlobalConfig :=
  { c with
    iterationTimeoutMs := if c.iterationTimeoutMs = 600000 then 0 else c.iterationTimeoutMs
    idleTimeoutMs := if c.idleTimeoutMs = 120000 then 0 else c.idleTimeoutMs }

/-- Claim C7: after `save_config c` succeeds, `load_config` returns `c`
unchanged except that a stored `iteration_timeout_ms` equal to 600000 and a
stored `idle_timeout_ms` equal to 120000 are normalized to 0; the normalized
config is written back to disk, so a second `load_config` returns the same
normalized value. -/
theorem save_config_load_config_roundtrip (c : GlobalConfig) (st : ConfigStore) :
    (load_config (save_config c st)).1 = normalizeTimeouts c ∧
    (load_config (load_config (save_config c st)).2).1 = normalizeTimeouts c := by
  have hmain : ∀ d : GlobalConfig, (load_config (some d)).1 = normalizeTimeouts d ∧
      (load_config (some d)).2 = some (normalizeTimeouts d) ∨
      (load_config (some d)).1 = normalizeTimeouts d ∧ (load_config (some d)).2 = some d ∧
        normalizeTimeouts d = d := by
    intro d
    by_cases h1 : d.iterationTimeoutMs = 600000 <;> by_cases h2 : d.idleTimeoutMs = 120000 <;>
      simp [load_config, save_config, normalizeTimeouts, h1, h2]
  have hstable : ∀ d : GlobalConfig, normalizeTimeouts (normalizeTimeouts d) = normalizeTimeouts d := by
    intro d
    by_cases h1 : d.iterationTimeoutMs = 600000 <;> by_cases h2 : d.idleTimeoutMs = 120000 <;>
      simp [normalizeTimeouts, h1, h2]
  have hsave : save_config c st = some c := rfl
  rw [hsave]
  rcases hmain c with ⟨ha, hb⟩ | ⟨ha, hb, hc⟩
  · refine ⟨ha, ?_⟩
    rw [hb]
    rcases hmain (normalizeTimeouts c) with ⟨ha2, _⟩ | ⟨ha2, _, _⟩ <;>
      rw [ha2, hstable]
  · refine ⟨ha, ?_⟩
    rw [hb, ha]

/-- Claim C7, witness for the round-trip at a concrete config holding both
legacy sentinel values. -/
theorem save_config_load_config_roundtrip_witness :
    (load_config (save_config GlobalConfig.default none)).1 =
      normalizeTimeouts GlobalConfig.default ∧
    (load_config (load_config (save_config GlobalConfig.default none)).2).1 =
      normalizeTimeouts GlobalConfig.default :=
  save_config_load_config_roundtrip GlobalConfig.default none

/-- Claim C10: `load_config` is not idempotent on first use.  When
`config.json` does not exist, `load_config` creates and returns the default
config with `iteration_timeout_ms = 600000` and `idle_timeout_ms = 120000`
without applying the sentinel migration; the immediately following
`load_config` returns a different config with both timeouts normalized
to 0. -/
theorem load_config_first_use_not_idempotent :
    (load_config none).1.iterationTimeoutMs = 600000 ∧
    (load_config none).1.idleTimeoutMs = 120000 ∧
    (load_config (load_config none).2).1.iterationTimeoutMs = 0 ∧
    (load_config (load_config none).2).1.idleTimeoutMs = 0 ∧
    (load_config (load_config none).2).1 ≠ (load_config none).1 := by
  refine ⟨rfl, rfl, rfl, rfl, ?_⟩
  intro h
  exact absurd (congrArg GlobalConfig.iterationTimeoutMs h) (by decide)

/-! ### Commands: `stop_loop` (`commands/loop_commands.rs`) -/

/-- Mirrors `storage::models::ProjectStatus`. -/
inductive ProjectStatus
  | brainstorming
  | ready
  | queued
  | running
  | pausing
  | paused
  | done
  | failed
  | cancelled
deriving DecidableEq, Repr

/-- Mirrors `storage::models::TaskConfig`. -/
structure TaskConfig where
  prompt : String
  designDocPath : Option String
  cli : CliType
  maxIterations : ℕ
  completionSignal : String
deriving DecidableEq, Repr

/-- Mirrors `storage::models::ExecutionState` (`DateTime<Utc>` as `Int`). -/
structure ExecutionState where
  startedAt : Int
  pausedAt : Option Int
  completedAt : Option Int
  currentIteration : ℕ
  lastOutput : String
  lastError : Option String
  lastExitCode : Option Int
deriving DecidableEq, Repr

/-- Mirrors `storage::models::ProjectState` (the `brainstorm` field is
abstracted; `Uuid` as `String`). -/
structure ProjectState where
  id : String
  name : String
  path : String
  status : ProjectStatus
  brainstorm : Option Unit
  task : Option TaskConfig
  execution : Option ExecutionState
  createdAt : Int
  updatedAt : Int
deriving DecidableEq, Repr

/-- Outcome of the `stop_loop` command: the state written back to disk (if
any), whether a `Stopped` event was emitted to the UI, and the returned
result. -/
structure StopLoopOutcome where
  savedState : Option ProjectState
  stoppedEmitted : Bool
  result : Except String Unit
deriving Repr

/-- Mirrors `commands::loop_commands::stop_loop` after uuid parsing.
`running` says whether the running-loops map contains the project (in which
case the stop flag is set and the resume notification fired); `ps` is the
stored project state (`none` when `load_project_state` fails); `now` is the
current time. -/
def stop_loop (running : Bool) (ps : Option ProjectState) (now : Int) : StopLoopOutcome :=
  let found := running
  let saved :=
    match ps with
    | some p =>
        some { p with
          status := .cancelled
          execution := p.execution.map fun e => { e with completedAt := some now }
          updatedAt := now }
    | none => none
  { savedState := saved
    stoppedEmitted := true
    result := if found then .ok () else .error "Loop not running for this project" }

/-- Claim C9: calling `stop_loop` on a project id with no entry in the
running-engines map still overwrites the stored project state (status set to
`Cancelled`, `execution.completed_at` set to now, `updated_at` set to now)
and still emits a `Stopped` event, even though it returns the error
"Loop not running for this project". -/
theorem stop_loop_not_running_still_mutates (p : ProjectState) (now : Int) :
    (stop_loop false (some p) now).result = .error "Loop not running for this project" ∧
    (stop_loop false (some p) now).stoppedEmitted = true ∧
    (stop_loop false (some p) now).savedState =
      some { p with
        status := .cancelled
        execution := p.execution.map fun e => { e with completedAt := some now }
        updatedAt := now } :=
  ⟨rfl, rfl, rfl⟩

/-! ### Brainstorm driver: balanced-JSON extraction (`engine/ai_brainstorm.rs`) -/

/-- Mirrors `ai_brainstorm::truncate_for_error`'s byte-budgeted prefix:
take characters while their UTF-8 sizes fit in the remaining budget. -/
def takeBytes : List Char → ℕ → List Char
  | [], _ => []
  | c :: cs, budget =>
      if c.utf8Size ≤ budget then c :: takeBytes cs (budget - c.utf8Size) else []

/-- Total UTF-8 byte length of a character list. -/
def bytesLen (l : List Char) : ℕ := (l.map Char.utf8Size).sum

/-- Mirrors `ai_brainstorm::truncate_for_error` (Rust `s.len()` is the UTF-8
byte length).  The slice `&s[..max_len]` taken on the long branch panics
when byte `max_len` is not a character boundary of `s`, which happens
exactly when the greedy byte-budgeted prefix falls short of `max_len`;
the panic is modelled as `none`. -/
def truncate_for_error (s : String) (maxLen : ℕ) : Option String :=
  if s.utf8ByteSize ≤ maxLen then some s
  else if bytesLen (takeBytes s.toList maxLen) = maxLen then
    some (String.mk (takeBytes s.toList maxLen) ++ "... (truncated, total " ++
      toString s.utf8ByteSize ++ " chars)")
  else none

/-- The walker state of `extract_balanced_json`: brace depth (an `i32` in the
source, so an `Int` here), string context, and escape context. -/
structure WalkState where
  depth : Int
  inString : Bool
  escapeNext : Bool
deriving DecidableEq, Repr

/-- Initial walker state. -/
def initWalk : WalkState := { depth := 0, inString := false, escapeNext := false }

/-- One step of the bracket-matching walker of `extract_balanced_json`:
the `escape_next` short-circuit, then the `match ch` arms in source order. -/
def walkStep (st : WalkState) (ch : Char) : WalkState :=
  if st.escapeNext then { st with escapeNext := false }
  else if ch == '\\' && st.inString then { st with escapeNext := true }
  else if ch == '"' then { st with inString := !st.inString }
  else if ch == '\x7b' && !st.inString then { st with depth := st.depth + 1 }
  else if ch == '\x7d' && !st.inString then { st with depth := st.depth - 1 }
  else st

/-- The walker folded over a list of characters. -/
def walkList (st : WalkState) (l : List Char) : WalkState :=
  l.foldl walkStep st

/-- The early-return condition of `extract_balanced_json` at character `ch`
in pre-state `st`: a closing brace outside a string that brings the depth
from 1 to 0. -/
def retHere (st : WalkState) (ch : Char) : Bool :=
  !st.escapeNext && ch == '\x7d' && !st.inString && st.depth == 1

/-- The "missing closing braces" error message of `extract_balanced_json`
(`none` when the message formatting panics in `truncate_for_error`). -/
def incompleteBracesMsg (depth : Int) (input : String) : Option String :=
  (truncate_for_error input 300).map (fun t =>
    "Incomplete JSON: missing " ++ toString depth ++
      " closing brace(s). This usually means the AI response was truncated. Partial content: " ++ t)

/-- The "unclosed string" error message of `extract_balanced_json`
(`none` when the message formatting panics in `truncate_for_error`). -/
def unclosedStringMsg (input : String) : Option String :=
  (truncate_for_error input 300).map (fun t =>
    "Incomplete JSON: unclosed string. This usually means the AI response was truncated. Partial content: " ++ t)

/-- The fallback error message of `extract_balanced_json`
(`none` when the message formatting panics in `truncate_for_error`). -/
def invalidStructureMsg (input : String) : Option String :=
  (truncate_for_error input 300).map (fun t => "Invalid JSON structure in: " ++ t)

/-- The character loop of `extract_balanced_json`: `acc` is the prefix already
consumed (the source keeps an index instead), `input` is the whole input
(used only by the error messages). -/
def ebjAux (input : String) (st : WalkState) (acc : List Char) :
    List Char → Option (Except String String)
  | [] =>
      if st.depth > 0 then (incompleteBracesMsg st.depth input).map .error
      else if st.inString then (unclosedStringMsg input).map .error
      else (invalidStructureMsg input).map .error
  | c :: rest =>
      if retHere st c then some (.ok (String.mk (acc ++ [c])))
      else ebjAux input (walkStep st c) (acc ++ [c]) rest

/-- Mirrors `ai_brainstorm::extract_balanced_json`; `none` is the panic of
the slice in `truncate_for_error` while an error message is formatted. -/
def extract_balanced_json (input : String) : Option (Except String String) :=
  ebjAux input initWalk [] input.toList

/-- `l` is one complete balanced JSON object in the sense of the bracket
walker: it is nonempty, starts with an opening brace, the walker depth
returns to zero over the whole of `l`, and stays positive on every nonempty
proper prefix (so the depth first returns to zero exactly at the last
character).  Every syntactically valid JSON object text satisfies this. -/
def BalancedObjStr (l : List Char) : Prop :=
  l ≠ [] ∧ l.head? = some '\x7b' ∧ (walkList initWalk l).depth = 0 ∧
    ∀ n, n < l.length → 0 < n → 0 < (walkList initWalk (l.take n)).depth

instance (l : List Char) : Decidable (BalancedObjStr l) := by
  unfold BalancedObjStr
  infer_instance

/-- Equation lemma: the loop on the empty list selects an error message. -/
theorem ebjAux_nil (input : String) (st : WalkState) (acc : List Char) :
    ebjAux input st acc [] =
      if st.depth > 0 then (incompleteBracesMsg st.depth input).map .error
      else if st.inString then (unclosedStringMsg input).map .error
      else (invalidStructureMsg input).map .error := rfl

/-- Equation lemma: the loop on a cons either returns early or steps. -/
theorem ebjAux_cons (input : String) (st : WalkState) (acc : List Char)
    (c : Char) (rest : List Char) :
    ebjAux input st acc (c :: rest) =
      if retHere st c then some (.ok (String.mk (acc ++ [c])))
      else ebjAux input (walkStep st c) (acc ++ [c]) rest := rfl

/-- Folding one more character on the right. -/
theorem walkList_append_singleton (done : List Char) (c : Char) :
    walkList initWalk (done ++ [c]) = walkStep (walkList initWalk done) c := by
  unfold walkList
  rw [List.foldl_append]
  rfl

/-- If the pre-state has positive depth and one step brings the depth to
zero, the stepping character triggers the early return. -/
theorem retHere_of_depth_drop (st : WalkState) (c : Char)
    (hpos : 0 < st.depth) (hzero : (walkStep st c).depth = 0) :
    retHere st c = true := by
  obtain ⟨d, istr, esc⟩ := st
  have hd : 0 < d := hpos
  unfold walkStep at hzero
  unfold retHere
  by_cases h0 : esc = true
  · subst h0
    rw [if_pos rfl] at hzero
    exact absurd (show d = 0 from hzero) (by omega)
  · have h0' : esc = false := by revert h0; cases esc <;> simp
    subst h0'
    rw [if_neg (by simp)] at hzero
    by_cases h1 : (c == '\\' && istr) = true
    · rw [if_pos h1] at hzero
      exact absurd (show d = 0 from hzero) (by omega)
    · rw [if_neg h1] at hzero
      by_cases h2 : (c == '"') = true
      · rw [if_pos h2] at hzero
        exact absurd (show d = 0 from hzero) (by omega)
      · rw [if_neg h2] at hzero
        by_cases h3 : (c == '\x7b' && !istr) = true
        · rw [if_pos h3] at hzero
          exact absurd (show d + 1 = 0 from hzero) (by omega)
        · rw [if_neg h3] at hzero
          by_cases h4 : (c == '\x7d' && !istr) = true
          · rw [if_pos h4] at hzero
            have hd1 : d - 1 = 0 := hzero
            simp only [Bool.and_eq_true] at h4
            have hc : (c == '\x7d') = true := h4.1
            have histr : (!istr) = true := h4.2
            simp only [Bool.not_false, Bool.true_and, hc, histr, Bool.and_true, beq_iff_eq]
            omega
          · rw [if_neg h4] at hzero
            exact absurd (show d = 0 from hzero) (by omega)

/-- If the early return fires, the stepped depth is zero. -/
theorem depth_drop_of_retHere (st : WalkState) (c : Char)
    (h : retHere st c = true) : (walkStep st c).depth = 0 := by
  obtain ⟨d, istr, esc⟩ := st
  unfold retHere at h
  simp only [Bool.and_eq_true] at h
  obtain ⟨⟨⟨h4, h3⟩, h2⟩, h1⟩ := h
  have hc : c = '\x7d' := eq_of_beq h3
  have histr : istr = false := by revert h2; cases istr <;> simp
  have hesc : esc = false := by revert h4; cases esc <;> simp
  have hd : d = 1 := beq_iff_eq.mp h1
  subst hc histr hesc hd
  unfold walkStep
  rw [if_neg (by simp), if_neg (by decide), if_neg (by decide), if_neg (by decide),
    if_pos (by decide)]
  rfl

/-- A mapped error option is never a successful result. -/
theorem map_error_ne_ok (o : Option String) (r : String) :
    o.map (Except.error : String → Except String String) ≠ some (.ok r) := by
  cases o <;> simp

/-- An `.ok` result of the loop is insensitive to extending the character
list and to the `input` carried for error messages. -/
theorem ebjAux_ok_append (l : List Char) :
    ∀ (t : List Char) (st : WalkState) (acc : List Char) (r : String)
      (input input' : String),
      ebjAux input st acc l = some (.ok r) →
        ebjAux input' st acc (l ++ t) = some (.ok r) := by
  induction l with
  | nil =>
      intro t st acc r input input' h
      rw [ebjAux_nil] at h
      split at h
      · exact absurd h (map_error_ne_ok _ _)
      · split at h
        · exact absurd h (map_error_ne_ok _ _)
        · exact absurd h (map_error_ne_ok _ _)
  | cons c rest ih =>
      intro t st acc r input input' h
      rw [ebjAux_cons] at h
      rw [List.cons_append, ebjAux_cons]
      by_cases hr : retHere st c = true
      · rw [if_pos hr] at h ⊢
        exact h
      · rw [if_neg hr] at h ⊢
        exact ih t _ _ r input input' h

/-- Running the loop over a balanced object from a matching intermediate
state returns the whole object. -/
theorem ebjAux_balanced (L : List Char) (hbal : BalancedObjStr L) :
    ∀ (todo done : List Char) (input : String),
      done ++ todo = L → todo ≠ [] →
      ebjAux input (walkList initWalk done) done todo = some (.ok (String.mk L)) := by
  obtain ⟨hne, hhead, hzero, hmid⟩ := hbal
  intro todo
  induction todo with
  | nil => intro done input _ habs; exact absurd rfl habs
  | cons c rest ih =>
      intro done input heq _
      cases rest with
      | nil =>
          -- c is the last character of L
          have hLeq : done ++ [c] = L := heq
          have hdz : (walkStep (walkList initWalk done) c).depth = 0 := by
            rw [← walkList_append_singleton, hLeq]; exact hzero
          have hdpos : 0 < (walkList initWalk done).depth := by
            cases done with
            | nil =>
                -- then L = [c] and c = the opening brace, so the depth over L is 1
                exfalso
                have hc : c = '\x7b' := by
                  rw [← hLeq] at hhead
                  simpa using hhead
                subst hc
                rw [← hLeq] at hzero
                have : (walkList initWalk ([] ++ ['\x7b'])).depth = 1 := by decide
                omega
            | cons a l =>
                have hlen : (a :: l).length < L.length := by
                  rw [← hLeq]; simp
                have := hmid (a :: l).length hlen (by simp)
                have htake : L.take (a :: l).length = a :: l := by
                  rw [← hLeq, List.take_append_of_le_length (by simp)]
                  simp
                rwa [htake] at this
          have hret : retHere (walkList initWalk done) c = true :=
            retHere_of_depth_drop _ _ hdpos hdz
          rw [ebjAux_cons, if_pos hret, hLeq]
      | cons d rest2 =>
          -- c is not the last character: the early return cannot fire
          have hret : retHere (walkList initWalk done) c = false := by
            by_contra hr
            have hr : retHere (walkList initWalk done) c = true := by
              revert hr; cases retHere (walkList initWalk done) c <;> simp
            have hdz : (walkStep (walkList initWalk done) c).depth = 0 :=
              depth_drop_of_retHere _ _ hr
            have hlt : done.length + 1 < L.length := by
              have : (done ++ c :: d :: rest2).length = L.length := by rw [heq]
              simp at this
              omega
            have := hmid (done.length + 1) hlt (by omega)
            have htake : L.take (done.length + 1) = done ++ [c] := by
              rw [← heq]
              rw [show done ++ c :: d :: rest2 = (done ++ [c]) ++ (d :: rest2) by simp]
              rw [List.take_append_of_le_length (by simp)]
              simp
            rw [htake, walkList_append_singleton] at this
            omega
          rw [ebjAux_cons, if_neg (by simp [hret]), ← walkList_append_singleton]
          exact ih (done ++ [c]) input (by simpa using heq) (by simp)

/-- If every nonempty prefix of `done ++ todo` keeps positive depth, the
early return never fires along `todo` and the loop ends in the "missing
closing braces" error carrying the final depth. -/
theorem ebjAux_no_return (todo : List Char) :
    ∀ (done : List Char) (input : String),
      done ++ todo ≠ [] →
      (∀ n, 0 < n → n ≤ (done ++ todo).length →
        0 < (walkList initWalk ((done ++ todo).take n)).depth) →
      ebjAux input (walkList initWalk done) done todo =
        (incompleteBracesMsg (walkList initWalk (done ++ todo)).depth input).map .error := by
  induction todo with
  | nil =>
      intro done input hne hpos
      have hlen : 0 < done.length := by
        cases done with
        | nil => simp at hne
        | cons a l => simp
      have hd : 0 < (walkList initWalk done).depth := by
        have := hpos done.length hlen (by simp)
        simpa using this
      rw [ebjAux_nil, if_pos hd]
      simp
  | cons c rest ih =>
      intro done input _hne hpos
      have hret : retHere (walkList initWalk done) c = false := by
        by_contra hr
        have hr : retHere (walkList initWalk done) c = true := by
          revert hr; cases retHere (walkList initWalk done) c <;> simp
        have hdz : (walkStep (walkList initWalk done) c).depth = 0 :=
          depth_drop_of_retHere _ _ hr
        have := hpos (done.length + 1) (by omega) (by simp)
        have htake : (done ++ c :: rest).take (done.length + 1) = done ++ [c] := by
          rw [show done ++ c :: rest = (done ++ [c]) ++ rest by simp]
          rw [List.take_append_of_le_length (by simp)]
          simp
        rw [htake, walkList_append_singleton] at this
        omega
      rw [ebjAux_cons, if_neg (by simp [hret]), ← walkList_append_singleton]
      have := ih (done ++ [c]) input (by simp) (by simpa using hpos)
      simpa using this

/-- Claim C6, counterexample: the empty string is a proper prefix of the
valid JSON object `"{}"`, yet `extract_balanced_json` returns the
"Invalid JSON structure" error for it, not the descriptive "incomplete JSON"
error citing a missing-brace count. -/
theorem c6_counterexample :
    BalancedObjStr ("\x7b\x7d".toList) ∧
    ("" : String).toList <+: ("\x7b\x7d".toList) ∧
    ("" : String).toList ≠ ("\x7b\x7d".toList) ∧
    extract_balanced_json "" = some (.error "Invalid JSON structure in: ") ∧
    strContains "Invalid JSON structure in: " "Incomplete JSON" = false := by
  refine ⟨by decide, ⟨"\x7b\x7d".toList, rfl⟩, by decide, rfl, by decide⟩

/-- Truncation is the identity under the 300-byte budget. -/
theorem truncate_small (s : String) (h : s.utf8ByteSize ≤ 300) :
    truncate_for_error s 300 = some s := by
  unfold truncate_for_error
  rw [if_pos h]

/-- Claim C6, amended: for every string made of one top-level balanced JSON
object followed by arbitrary trailing text, `extract_balanced_json` returns
that object verbatim; and for every *nonempty* proper prefix of a balanced
JSON object (in particular of any valid JSON object text), it takes the
descriptive "incomplete JSON" error path citing the number of missing
closing braces, which is the walker depth of the prefix and is positive —
the error string is actually returned when the prefix stays within the
300-byte truncation budget (third conjunct), while for longer prefixes
whose byte 300 is not a character boundary the message formatting itself
panics (`none`), per `truncate_for_error`. -/
theorem extract_balanced_json_spec :
    (∀ (obj trailing : List Char), BalancedObjStr obj →
      extract_balanced_json (String.mk (obj ++ trailing)) =
        some (.ok (String.mk obj))) ∧
    (∀ (L : List Char) (n : ℕ), BalancedObjStr L → 0 < n → n < L.length →
      extract_balanced_json (String.mk (L.take n)) =
        (incompleteBracesMsg (walkList initWalk (L.take n)).depth
          (String.mk (L.take n))).map .error ∧
      0 < (walkList initWalk (L.take n)).depth ∧
      ((String.mk (L.take n)).utf8ByteSize ≤ 300 →
        extract_balanced_json (String.mk (L.take n)) =
          some (.error ("Incomplete JSON: missing " ++
            toString (walkList initWalk (L.take n)).depth ++
            " closing brace(s). This usually means the AI response was truncated. Partial content: " ++
            String.mk (L.take n))))) := by
  constructor
  · intro obj trailing hbal
    have hrun : ebjAux (String.mk (obj ++ trailing)) initWalk [] obj =
        some (.ok (String.mk obj)) := by
      have := ebjAux_balanced obj hbal obj [] (String.mk (obj ++ trailing)) (by simp) hbal.1
      simpa [walkList] using this
    unfold extract_balanced_json
    have hlist : (String.mk (obj ++ trailing)).toList = obj ++ trailing := rfl
    rw [hlist]
    exact ebjAux_ok_append obj trailing initWalk [] (String.mk obj) _ _ hrun
  · intro L n hbal hn hlen
    obtain ⟨_, _, _, hmid⟩ := hbal
    have hpos : ∀ m, 0 < m → m ≤ (([] : List Char) ++ L.take n).length →
        0 < (walkList initWalk ((([] : List Char) ++ L.take n).take m)).depth := by
      intro m hm hmle
      simp only [List.nil_append] at hmle
      have hm2 : m ≤ n := hmle.trans (List.length_take_le n L)
      simp only [List.nil_append]
      rw [List.take_take, min_eq_left hm2]
      exact hmid m (by omega) hm
    have hne2 : (([] : List Char) ++ L.take n) ≠ [] := by
      simp only [List.nil_append]
      intro habs
      have h0 : (L.take n).length = 0 := by rw [habs]; rfl
      rw [List.length_take] at h0
      rcases Nat.min_eq_zero_iff.mp h0 with h | h <;> omega
    have hrun := ebjAux_no_return (L.take n) [] (String.mk (L.take n)) hne2 hpos
    simp only [List.nil_append] at hrun
    have hmain : extract_balanced_json (String.mk (L.take n)) =
        (incompleteBracesMsg (walkList initWalk (L.take n)).depth
          (String.mk (L.take n))).map .error := by
      unfold extract_balanced_json
      have hlist : (String.mk (L.take n)).toList = L.take n := rfl
      rw [hlist]
      have hinit : walkList initWalk [] = initWalk := rfl
      rw [← hinit]
      exact hrun
    refine ⟨hmain, hmid n hlen hn, ?_⟩
    intro hsz
    rw [hmain]
    unfold incompleteBracesMsg
    rw [truncate_small _ hsz]
    rfl

/-- Claim C6, witness: the amended theorem applied to the concrete object
whose string literal contains a brace (exercising the string-awareness of
the walker), with trailing text, and to its proper prefix of length 5,
which is under the truncation budget, so the descriptive error is returned. -/
theorem extract_balanced_json_spec_witness :
    extract_balanced_json (String.mk (("\x7b\"a\":\"x\x7d\"\x7d".toList) ++ " tail".toList)) =
      some (.ok (String.mk ("\x7b\"a\":\"x\x7d\"\x7d".toList))) ∧
    extract_balanced_json (String.mk (("\x7b\"a\":\"x\x7d\"\x7d".toList).take 5)) =
      some (.error ("Incomplete JSON: missing " ++
        toString (walkList initWalk (("\x7b\"a\":\"x\x7d\"\x7d".toList).take 5)).depth ++
        " closing brace(s). This usually means the AI response was truncated. Partial content: " ++
        String.mk (("\x7b\"a\":\"x\x7d\"\x7d".toList).take 5))) :=
  ⟨extract_balanced_json_spec.1 ("\x7b\"a\":\"x\x7d\"\x7d".toList) (" tail".toList)
      (by decide),
    (extract_balanced_json_spec.2 ("\x7b\"a\":\"x\x7d\"\x7d".toList) 5
      (by decide) (by decide) (by decide)).2.2 (by decide)⟩

/-! ### Loop engine (`engine/mod.rs`)

The engine's `start` is an asynchronous loop reading two child streams, a
1-second timer, and three shared control primitives.  It is embedded as a
deterministic interpreter over an environment of oracles: `stop`/`pause` give
the values of the level-triggered atomic flags as functions of a logical
clock that advances at every await/read point (the oracles describe the
values after the `start`-time reset of both flags), `notify` says at which
wait-loop turns the `resume_notify` branch of the select wins, and `iters`
scripts each spawned child's interleaved stream events.  Timeout conditions
(`Instant` comparisons) are scripted as the boolean outcomes carried by the
timer-tick events, gated on the corresponding timeout being configured. -/

/-- Mirrors `engine::CODEX_GIT_REPO_CHECK_REQUIRED`. -/
def codexGitRepoCheckRequired : String := "codex_git_repo_check_required"

/-- Mirrors `engine::LoopEvent`. -/
inductive LoopEvent
  | iterationStart (projectId : String) (iteration : ℕ)
  | output (projectId : String) (iteration : ℕ) (content : String) (isStderr : Bool)
  | pausing (projectId : String) (iteration : ℕ)
  | paused (projectId : String) (iteration : ℕ)
  | resumed (projectId : String) (iteration : ℕ)
  | completed (projectId : String) (iteration : ℕ)
  | maxIterationsReached (projectId : String) (iteration : ℕ)
  | error (projectId : String) (iteration : ℕ) (message : String)
  | stopped (projectId : String)
deriving DecidableEq, Repr

/-- Mirrors `engine::LoopState`. -/
inductive LoopState
  | idle
  | running (iteration : ℕ)
  | pausing (iteration : ℕ)
  | paused (iteration : ℕ)
  | completed (iteration : ℕ)
  | failed (iteration : ℕ)
deriving DecidableEq, Repr

/-- The engine's per-run configuration (the fields of `LoopEngine` that the
loop body reads).  `parse` is `get_adapter(cli_type).parse_output_line`,
abstracted as a function; `iterationTimeoutMs`/`idleTimeoutMs` are the
optional timeouts (`None` disables). -/
structure EngineCfg where
  projectId : String
  cliType : CliType
  maxIterations : ℕ
  completionSignal : String
  iterationTimeoutMs : Option ℕ
  idleTimeoutMs : Option ℕ
  parse : String → ParsedLine

/-- Mirrors `LoopEngine::is_codex_git_repo_check_error`. -/
def isCodexGitRepoCheckError (cfg : EngineCfg) (line : String) : Bool :=
  cfg.cliType == CliType.codex &&
    strContains line "Not inside a trusted directory" &&
    strContains line "skip-git-repo-check"

/-- The engine's completion check on a parsed stdout line
(`parsed.is_assistant && parsed.content.contains(&self.completion_signal)`). -/
def completionHit (cfg : EngineCfg) (line : String) : Bool :=
  (cfg.parse line).isAssistant && strContains (cfg.parse line).content cfg.completionSignal

/-- One scripted outcome of the three-way `tokio::select!` in the read loop:
a stdout line, stdout end-of-stream (`Ok(None)` or `Err(_)`), a stderr line,
stderr end-of-stream, or a 1-second timer tick carrying the outcomes of the
two deadline comparisons at that tick. -/
inductive ChildEvent
  | outLine (line : String)
  | outEnd
  | errLine (line : String)
  | errEnd
  | timerTick (iterationDeadlineHit : Bool) (idleTimeoutHit : Bool)
deriving DecidableEq, Repr

/-- The script for one iteration: whether `cmd.spawn()` fails (with the OS
error text) and, if it spawns, the interleaved stream events. -/
structure IterScript where
  spawnErr : Option String
  events : List ChildEvent

/-- The oracle environment of one engine run. -/
structure EngineEnv where
  stop : ℕ → Bool
  pause : ℕ → Bool
  notify : ℕ → Bool
  iters : List IterScript
  waitFuel : ℕ

/-- The `Iteration timeout` error text (the `Duration` debug formatting is
abstracted). -/
def iterationTimeoutMsg (cfg : EngineCfg) : String :=
  "Iteration timeout: exceeded " ++ toString (cfg.iterationTimeoutMs.getD 0) ++ "ms"

/-- The `Idle timeout` error text (the `Duration` debug formatting is
abstracted). -/
def idleTimeoutMsg (cfg : EngineCfg) : String :=
  "Idle timeout: no output for " ++ toString (cfg.idleTimeoutMs.getD 0) ++ "ms"

/-- The wait loop inside the pause gate (`loop { select! { resume_notify =>
break, sleep(100ms) => if stop_requested { ... return Idle } } }`).
Returns `none` when `fuel` runs out (the real loop would still be waiting),
otherwise `(observedStop, emitted events, clock, recorded stop reads)`. -/
def waitPhase (env : EngineEnv) (pid : String) : ℕ → ℕ → Option (Bool × List LoopEvent × ℕ × List ℕ)
  | _, 0 => none
  | t, fuel + 1 =>
      if env.notify t then some (false, [], t + 1, [])
      else
        -- the sleep(100ms) branch won; read stop_requested after the tick
        if env.stop (t + 1) then some (true, [.stopped pid], t + 2, [t + 1])
        else
          match waitPhase env pid (t + 2) fuel with
          | none => none
          | some (b, evs, t2, rs) => some (b, evs, t2, (t + 1) :: rs)

/-- The pause gate (pre-iteration lines 137–163, post-iteration lines
322–347 of `engine/mod.rs`): when `pause_requested` is set, emit `Paused`,
wait, and on resume clear the flag and emit `Resumed`.  The boolean result
is `true` when stop was observed during the wait (the engine returns Idle). -/
def pauseGate (env : EngineEnv) (pid : String) (iter : ℕ) (t : ℕ) :
    Option (Bool × List LoopEvent × ℕ × List ℕ) :=
  if env.pause t then
    match waitPhase env pid (t + 1) env.waitFuel with
    | none => none
    | some (true, evs, t2, rs) => some (true, .paused pid iter :: evs, t2, rs)
    | some (false, evs, t2, rs) =>
        -- resumed: clear pause_requested, emit Resumed
        some (false, (.paused pid iter :: evs) ++ [.resumed pid iter], t2 + 1, rs)
  else some (false, [], t + 1, [])

/-- Result of one iteration's read loop. -/
inductive ReadRes
  | rStopped
  | rFatal
  | rCompleted
  | rContinue
deriving DecidableEq, Repr

/-- The concurrent read loop of one iteration (`engine/mod.rs` lines
202–308): while a stream is open, check `stop_requested` (kill + `Stopped` +
Idle when set), then select the next scripted event.  Assistant lines
containing the signal kill the child and mark completion; the Codex
trusted-directory stderr guard kills the child and fails the engine; timer
ticks apply the iteration-deadline and idle-timeout checks in source order,
each killing the child and breaking out of the loop. -/
def readPhase (cfg : EngineCfg) (env : EngineEnv) (iter : ℕ) :
    List ChildEvent → Bool → Bool → ℕ → Option (ReadRes × List LoopEvent × ℕ × List ℕ)
  | evs, stdoutDone, stderrDone, t =>
    if stdoutDone && stderrDone then some (.rContinue, [], t, [])
    else if env.stop t then
      some (.rStopped, [.stopped cfg.projectId], t + 2, [t])
    else
      match evs with
      | [] => none
      | e :: rest =>
        match e with
        | .outLine line =>
            if stdoutDone then none
            else
              let parsed := cfg.parse line
              let outEv := LoopEvent.output cfg.projectId iter parsed.content false
              if parsed.isAssistant && strContains parsed.content cfg.completionSignal then
                some (.rCompleted, [outEv], t + 3, [t])
              else
                match readPhase cfg env iter rest stdoutDone stderrDone (t + 2) with
                | none => none
                | some (r, evs2, t2, rs) => some (r, outEv :: evs2, t2, t :: rs)
        | .outEnd =>
            if stdoutDone then none
            else
              match readPhase cfg env iter rest true stderrDone (t + 2) with
              | none => none
              | some (r, evs2, t2, rs) => some (r, evs2, t2, t :: rs)
        | .errLine line =>
            if stderrDone then none
            else if isCodexGitRepoCheckError cfg line then
              some (.rFatal, [.error cfg.projectId iter codexGitRepoCheckRequired], t + 3, [t])
            else
              let outEv := LoopEvent.output cfg.projectId iter line
                (cfg.cliType != CliType.codex)
              match readPhase cfg env iter rest stdoutDone stderrDone (t + 2) with
              | none => none
              | some (r, evs2, t2, rs) => some (r, outEv :: evs2, t2, t :: rs)
        | .errEnd =>
            if stderrDone then none
            else
              match readPhase cfg env iter rest stdoutDone true (t + 2) with
              | none => none
              | some (r, evs2, t2, rs) => some (r, evs2, t2, t :: rs)
        | .timerTick iterHit idleHit =>
            if cfg.iterationTimeoutMs.isSome && iterHit then
              some (.rContinue, [.error cfg.projectId iter (iterationTimeoutMsg cfg)], t + 3, [t])
            else if cfg.idleTimeoutMs.isSome && idleHit then
              some (.rContinue, [.error cfg.projectId iter (idleTimeoutMsg cfg)], t + 3, [t])
            else
              match readPhase cfg env iter rest stdoutDone stderrDone (t + 2) with
              | none => none
              | some (r, evs2, t2, rs) => some (r, evs2, t2, t :: rs)

/-- The outer `while iteration < self.max_iterations` loop of
`LoopEngine::start`, by recursion on the remaining iteration budget
(`remaining = max_iterations - iteration`).  Returns the emitted events, the
returned `LoopState`, the final clock, and the steps at which
`stop_requested` was read. -/
def outerLoop (cfg : EngineCfg) (env : EngineEnv) :
    ℕ → ℕ → List IterScript → ℕ → Option (List LoopEvent × LoopState × ℕ × List ℕ)
  | iteration, 0, _, t =>
      -- while-condition false: max iterations reached
      some ([.maxIterationsReached cfg.projectId iteration], .failed iteration, t, [])
  | iteration, remaining + 1, iters, t =>
      -- pre-iteration stop gate
      if env.stop t then some ([.stopped cfg.projectId], .idle, t + 1, [t])
      else
        -- pre-iteration pause gate
        match pauseGate env cfg.projectId iteration (t + 1) with
        | none => none
        | some (true, gevs, t1, rs1) => some (gevs, .idle, t1, t :: rs1)
        | some (false, gevs, t1, rs1) =>
          let iter := iteration + 1
          let startEv := LoopEvent.iterationStart cfg.projectId iter
          match iters with
          | [] => none
          | script :: iters2 =>
            match script.spawnErr with
            | some emsg =>
                -- spawn failure: emit Error and continue with the next iteration
                match outerLoop cfg env iter remaining iters2 (t1 + 1) with
                | none => none
                | some (evs, st, t4, rs4) =>
                    some (gevs ++ startEv ::
                        .error cfg.projectId iter ("Failed to spawn CLI: " ++ emsg) :: evs,
                      st, t4, t :: (rs1 ++ rs4))
            | none =>
                match readPhase cfg env iter script.events false false (t1 + 1) with
                | none => none
                | some (.rStopped, revs, t2, rs2) =>
                    some (gevs ++ startEv :: revs, .idle, t2, t :: (rs1 ++ rs2))
                | some (.rFatal, revs, t2, rs2) =>
                    some (gevs ++ startEv :: revs, .failed iter, t2, t :: (rs1 ++ rs2))
                | some (.rCompleted, revs, t2, rs2) =>
                    some (gevs ++ startEv :: (revs ++ [.completed cfg.projectId iter]),
                      .completed iter, t2, t :: (rs1 ++ rs2))
                | some (.rContinue, revs, t2, rs2) =>
                    -- child.wait().await, then the post-iteration pause gate
                    match pauseGate env cfg.projectId iter (t2 + 1) with
                    | none => none
                    | some (true, pevs, t3, rs3) =>
                        some (gevs ++ startEv :: (revs ++ pevs), .idle, t3,
                          t :: (rs1 ++ rs2 ++ rs3))
                    | some (false, pevs, t3, rs3) =>
                        match outerLoop cfg env iter remaining iters2 t3 with
                        | none => none
                        | some (evs, st, t4, rs4) =>
                            some (gevs ++ startEv :: (revs ++ pevs ++ evs), st, t4,
                              t :: (rs1 ++ rs2 ++ rs3 ++ rs4))

/-- The result of one engine run. -/
structure RunResult where
  trace : List LoopEvent
  state : LoopState
  clockEnd : ℕ
  stopReads : List ℕ
deriving DecidableEq, Repr

/-- Mirrors `LoopEngine::start`: reset the flags (the oracles describe the
post-reset values) and run the bounded loop from iteration 0. -/
def runEngine (cfg : EngineCfg) (env : EngineEnv) : Option RunResult :=
  match outerLoop cfg env 0 cfg.maxIterations env.iters 0 with
  | none => none
  | some (evs, st, t, rs) => some ⟨evs, st, t, rs⟩

/-- Recognizer for `IterationStart` events. -/
def isIterStartEv : LoopEvent → Bool
  | .iterationStart _ _ => true
  | _ => false

/-- Number of `IterationStart` events in a trace segment. -/
def countIS (l : List LoopEvent) : ℕ :=
  (l.filter isIterStartEv).length

theorem countIS_append (a b : List LoopEvent) : countIS (a ++ b) = countIS a + countIS b := by
  unfold countIS
  rw [List.filter_append, List.length_append]

/-- The events the read loop emits apart from its terminal `Stopped`:
`Output` and `Error` events of the running iteration. -/
def OutsEv (pid : String) (iter : ℕ) (e : LoopEvent) : Prop :=
  (∃ c b, e = .output pid iter c b) ∨ (∃ m, e = .error pid iter m)

theorem countIS_eq_zero_of_outs {pid : String} {iter : ℕ} {l : List LoopEvent}
    (h : ∀ e ∈ l, OutsEv pid iter e) : countIS l = 0 := by
  unfold countIS
  rw [List.length_eq_zero, List.filter_eq_nil_iff]
  intro e he
  rcases h e he with ⟨c, b, rfl⟩ | ⟨m, rfl⟩ <;> simp [isIterStartEv]

theorem waitPhase_zero (env : EngineEnv) (pid : String) (t : ℕ) :
    waitPhase env pid t 0 = none := rfl

theorem waitPhase_succ (env : EngineEnv) (pid : String) (t fuel : ℕ) :
    waitPhase env pid t (fuel + 1) =
      if env.notify t then some (false, [], t + 1, [])
      else
        if env.stop (t + 1) then some (true, [.stopped pid], t + 2, [t + 1])
        else
          match waitPhase env pid (t + 2) fuel with
          | none => none
          | some (b, evs, t2, rs) => some (b, evs, t2, (t + 1) :: rs) := rfl

/-- The wait loop either observes stop (emitting exactly `Stopped`) or is
resumed (emitting nothing). -/
theorem waitPhase_shape (env : EngineEnv) (pid : String) :
    ∀ (fuel t : ℕ) (b : Bool) (evs : List LoopEvent) (t2 : ℕ) (rs : List ℕ),
      waitPhase env pid t fuel = some (b, evs, t2, rs) →
      (b = true ∧ evs = [.stopped pid]) ∨ (b = false ∧ evs = []) := by
  intro fuel
  induction fuel with
  | zero => intro t b evs t2 rs h; rw [waitPhase_zero] at h; cases h
  | succ fuel ih =>
      intro t b evs t2 rs h
      rw [waitPhase_succ] at h
      by_cases hn : env.notify t = true
      · rw [if_pos hn] at h
        injection h with h
        injection h with h1 h
        injection h with h2 _
        right
        exact ⟨h1.symm, h2.symm⟩
      · rw [if_neg hn] at h
        by_cases hs : env.stop (t + 1) = true
        · rw [if_pos hs] at h
          injection h with h
          injection h with h1 h
          injection h with h2 _
          left
          exact ⟨h1.symm, h2.symm⟩
        · rw [if_neg hs] at h
          cases hw : waitPhase env pid (t + 2) fuel with
          | none => rw [hw] at h; cases h
          | some r =>
              obtain ⟨b', evs', t2', rs'⟩ := r
              rw [hw] at h
              injection h with h
              injection h with h1 h
              injection h with h2 _
              subst h1 h2
              exact ih (t + 2) b' evs' t2' rs' hw

/-- A stop-flag read that comes back hot inside the wait loop makes the wait
report stop. -/
theorem waitPhase_stop (env : EngineEnv) (pid : String) :
    ∀ (fuel t : ℕ) (b : Bool) (evs : List LoopEvent) (t2 : ℕ) (rs : List ℕ),
      waitPhase env pid t fuel = some (b, evs, t2, rs) →
      ∀ u ∈ rs, env.stop u = true → b = true := by
  intro fuel
  induction fuel with
  | zero => intro t b evs t2 rs h; rw [waitPhase_zero] at h; cases h
  | succ fuel ih =>
      intro t b evs t2 rs h u hu hhot
      rw [waitPhase_succ] at h
      by_cases hn : env.notify t = true
      · rw [if_pos hn] at h
        injection h with h
        injection h with _ h
        injection h with _ h
        injection h with _ h4
        subst h4
        cases hu
      · rw [if_neg hn] at h
        by_cases hs : env.stop (t + 1) = true
        · rw [if_pos hs] at h
          injection h with h
          injection h with h1 _
          exact h1.symm
        · rw [if_neg hs] at h
          cases hw : waitPhase env pid (t + 2) fuel with
          | none => rw [hw] at h; cases h
          | some r =>
              obtain ⟨b', evs', t2', rs'⟩ := r
              rw [hw] at h
              injection h with h
              injection h with h1 h
              injection h with _ h
              injection h with _ h4
              subst h1 h4
              rcases List.mem_cons.mp hu with rfl | hu2
              · exact absurd hhot (by simp [hs])
              · exact ih (t + 2) b' evs' t2' rs' hw u hu2 hhot

/-- Shapes of the pause gate's emitted events. -/
theorem pauseGate_shape (env : EngineEnv) (pid : String) (n t : ℕ)
    (b : Bool) (gevs : List LoopEvent) (t1 : ℕ) (rs : List ℕ)
    (h : pauseGate env pid n t = some (b, gevs, t1, rs)) :
    (b = false ∧ gevs = []) ∨
    (b = false ∧ gevs = [.paused pid n, .resumed pid n]) ∨
    (b = true ∧ gevs = [.paused pid n, .stopped pid]) := by
  unfold pauseGate at h
  by_cases hp : env.pause t = true
  · rw [if_pos hp] at h
    cases hw : waitPhase env pid (t + 1) env.waitFuel with
    | none => rw [hw] at h; cases h
    | some r =>
        obtain ⟨b', evs', t2', rs'⟩ := r
        rw [hw] at h
        rcases waitPhase_shape env pid env.waitFuel (t + 1) b' evs' t2' rs' hw with
          ⟨rfl, rfl⟩ | ⟨rfl, rfl⟩
        · simp only at h
          injection h with h
          injection h with h1 h
          injection h with h2 _
          subst h1 h2
          right; right; exact ⟨rfl, rfl⟩
        · simp only at h
          injection h with h
          injection h with h1 h
          injection h with h2 _
          subst h1 h2
          right; left; exact ⟨rfl, rfl⟩
  · rw [if_neg hp] at h
    injection h with h
    injection h with h1 h
    injection h with h2 _
    subst h1 h2
    left; exact ⟨rfl, rfl⟩

/-- A hot stop read inside the pause gate makes the gate report stop. -/
theorem pauseGate_stop (env : EngineEnv) (pid : String) (n t : ℕ)
    (b : Bool) (gevs : List LoopEvent) (t1 : ℕ) (rs : List ℕ)
    (h : pauseGate env pid n t = some (b, gevs, t1, rs)) :
    ∀ u ∈ rs, env.stop u = true → b = true := by
  intro u hu hhot
  unfold pauseGate at h
  by_cases hp : env.pause t = true
  · rw [if_pos hp] at h
    cases hw : waitPhase env pid (t + 1) env.waitFuel with
    | none => rw [hw] at h; cases h
    | some r =>
        obtain ⟨b', evs', t2', rs'⟩ := r
        rw [hw] at h
        have hb' : b' = true := by
          cases b' with
          | true => rfl
          | false =>
              simp only at h
              injection h with h
              injection h with h1 h
              injection h with _ h
              injection h with _ h4
              subst h4
              exact waitPhase_stop env pid env.waitFuel (t + 1) false evs' t2' rs' hw u hu hhot
        subst hb'
        simp only at h
        injection h with h
        injection h with h1 _
        exact h1.symm
  · rw [if_neg hp] at h
    injection h with h
    injection h with _ h
    injection h with _ h
    injection h with _ h4
    subst h4
    cases hu

/-- Case-analysis helper: destructure a successful `readPhase` turn on a
cons event into its branches. -/
theorem readPhase_shape (cfg : EngineCfg) (env : EngineEnv) (iter : ℕ) :
    ∀ (evs : List ChildEvent) (sd se : Bool) (t : ℕ) (res : ReadRes)
      (revs : List LoopEvent) (t2 : ℕ) (rs : List ℕ),
      readPhase cfg env iter evs sd se t = some (res, revs, t2, rs) →
      (res = .rStopped ∧ ∃ outs, (∀ e ∈ outs, OutsEv cfg.projectId iter e) ∧
        revs = outs ++ [.stopped cfg.projectId]) ∨
      (res ≠ .rStopped ∧ ∀ e ∈ revs, OutsEv cfg.projectId iter e) := by
  intro evs
  induction evs with
  | nil =>
      intro sd se t res revs t2 rs h
      simp only [readPhase] at h
      by_cases hd : (sd && se) = true
      · rw [if_pos hd] at h
        injection h with h
        injection h with h1 h
        injection h with h2 _
        subst h1 h2
        right
        refine ⟨by simp, by simp⟩
      · rw [if_neg hd] at h
        by_cases hs : env.stop t = true
        · rw [if_pos hs] at h
          injection h with h
          injection h with h1 h
          injection h with h2 _
          subst h1 h2
          left
          exact ⟨rfl, [], by simp, by simp⟩
        · rw [if_neg hs] at h
          cases h
  | cons e rest ih =>
      intro sd se t res revs t2 rs h
      simp only [readPhase] at h
      by_cases hd : (sd && se) = true
      · rw [if_pos hd] at h
        injection h with h
        injection h with h1 h
        injection h with h2 _
        subst h1 h2
        right
        refine ⟨by simp, by simp⟩
      · rw [if_neg hd] at h
        by_cases hs : env.stop t = true
        · rw [if_pos hs] at h
          injection h with h
          injection h with h1 h
          injection h with h2 _
          subst h1 h2
          left
          exact ⟨rfl, [], by simp, by simp⟩
        · rw [if_neg hs] at h
          cases e with
          | outLine line =>
              simp only at h
              by_cases hsd : sd = true
              · rw [if_pos hsd] at h; cases h
              · rw [if_neg hsd] at h
                by_cases hc : ((cfg.parse line).isAssistant &&
                    strContains (cfg.parse line).content cfg.completionSignal) = true
                · rw [if_pos hc] at h
                  injection h with h
                  injection h with h1 h
                  injection h with h2 _
                  subst h1 h2
                  right
                  refine ⟨by simp, ?_⟩
                  intro x hx
                  rcases List.mem_singleton.mp hx with rfl
                  exact Or.inl ⟨_, _, rfl⟩
                · rw [if_neg hc] at h
                  cases hr : readPhase cfg env iter rest sd se (t + 2) with
                  | none => rw [hr] at h; cases h
                  | some r4 =>
                      obtain ⟨res', revs', t2', rs'⟩ := r4
                      rw [hr] at h
                      injection h with h
                      injection h with h1 h
                      injection h with h2 _
                      subst h1 h2
                      rcases ih sd se (t + 2) res' revs' t2' rs' hr with
                        ⟨hres, outs, houts, rfl⟩ | ⟨hres, houts⟩
                      · left
                        refine ⟨hres, LoopEvent.output cfg.projectId iter
                          (cfg.parse line).content false :: outs, ?_, by simp⟩
                        intro x hx
                        rcases List.mem_cons.mp hx with rfl | hx2
                        · exact Or.inl ⟨_, _, rfl⟩
                        · exact houts x hx2
                      · right
                        refine ⟨hres, ?_⟩
                        intro x hx
                        rcases List.mem_cons.mp hx with rfl | hx2
                        · exact Or.inl ⟨_, _, rfl⟩
                        · exact houts x hx2
          | outEnd =>
              simp only at h
              by_cases hsd : sd = true
              · rw [if_pos hsd] at h; cases h
              · rw [if_neg hsd] at h
                cases hr : readPhase cfg env iter rest true se (t + 2) with
                | none => rw [hr] at h; cases h
                | some r4 =>
                    obtain ⟨res', revs', t2', rs'⟩ := r4
                    rw [hr] at h
                    injection h with h
                    injection h with h1 h
                    injection h with h2 _
                    subst h1 h2
                    exact ih true se (t + 2) res' revs' t2' rs' hr
          | errLine line =>
              simp only at h
              by_cases hse : se = true
              · rw [if_pos hse] at h; cases h
              · rw [if_neg hse] at h
                by_cases hf : isCodexGitRepoCheckError cfg line = true
                · rw [if_pos hf] at h
                  injection h with h
                  injection h with h1 h
                  injection h with h2 _
                  subst h1 h2
                  right
                  refine ⟨by simp, ?_⟩
                  intro x hx
                  rcases List.mem_singleton.mp hx with rfl
                  exact Or.inr ⟨_, rfl⟩
                · rw [if_neg hf] at h
                  cases hr : readPhase cfg env iter rest sd se (t + 2) with
                  | none => rw [hr] at h; cases h
                  | some r4 =>
                      obtain ⟨res', revs', t2', rs'⟩ := r4
                      rw [hr] at h
                      injection h with h
                      injection h with h1 h
                      injection h with h2 _
                      subst h1 h2
                      rcases ih sd se (t + 2) res' revs' t2' rs' hr with
                        ⟨hres, outs, houts, rfl⟩ | ⟨hres, houts⟩
                      · left
                        refine ⟨hres, LoopEvent.output cfg.projectId iter line
                          (cfg.cliType != CliType.codex) :: outs, ?_, by simp⟩
                        intro x hx
                        rcases List.mem_cons.mp hx with rfl | hx2
                        · exact Or.inl ⟨_, _, rfl⟩
                        · exact houts x hx2
                      · right
                        refine ⟨hres, ?_⟩
                        intro x hx
                        rcases List.mem_cons.mp hx with rfl | hx2
                        · exact Or.inl ⟨_, _, rfl⟩
                        · exact houts x hx2
          | errEnd =>
              simp only at h
              by_cases hse : se = true
              · rw [if_pos hse] at h; cases h
              · rw [if_neg hse] at h
                cases hr : readPhase cfg env iter rest sd true (t + 2) with
                | none => rw [hr] at h; cases h
                | some r4 =>
                    obtain ⟨res', revs', t2', rs'⟩ := r4
                    rw [hr] at h
                    injection h with h
                    injection h with h1 h
                    injection h with h2 _
                    subst h1 h2
                    exact ih sd true (t + 2) res' revs' t2' rs' hr
          | timerTick iterHit idleHit =>
              simp only at h
              by_cases h1c : (cfg.iterationTimeoutMs.isSome && iterHit) = true
              · rw [if_pos h1c] at h
                injection h with h
                injection h with h1 h
                injection h with h2 _
                subst h1 h2
                right
                refine ⟨by simp, ?_⟩
                intro x hx
                rcases List.mem_singleton.mp hx with rfl
                exact Or.inr ⟨_, rfl⟩
              · rw [if_neg h1c] at h
                by_cases h2c : (cfg.idleTimeoutMs.isSome && idleHit) = true
                · rw [if_pos h2c] at h
                  injection h with h
                  injection h with h1 h
                  injection h with h2 _
                  subst h1 h2
                  right
                  refine ⟨by simp, ?_⟩
                  intro x hx
                  rcases List.mem_singleton.mp hx with rfl
                  exact Or.inr ⟨_, rfl⟩
                · rw [if_neg h2c] at h
                  cases hr : readPhase cfg env iter rest sd se (t + 2) with
                  | none => rw [hr] at h; cases h
                  | some r4 =>
                      obtain ⟨res', revs', t2', rs'⟩ := r4
                      rw [hr] at h
                      injection h with h
                      injection h with h1 h
                      injection h with h2 _
                      subst h1 h2
                      exact ih sd se (t + 2) res' revs' t2' rs' hr

/-- A hot stop read inside the read loop makes it report stop. -/
theorem readPhase_stop (cfg : EngineCfg) (env : EngineEnv) (iter : ℕ) :
    ∀ (evs : List ChildEvent) (sd se : Bool) (t : ℕ) (res : ReadRes)
      (revs : List LoopEvent) (t2 : ℕ) (rs : List ℕ),
      readPhase cfg env iter evs sd se t = some (res, revs, t2, rs) →
      ∀ u ∈ rs, env.stop u = true → res = .rStopped := by
  intro evs
  induction evs with
  | nil =>
      intro sd se t res revs t2 rs h u hu hhot
      simp only [readPhase] at h
      by_cases hd : (sd && se) = true
      · rw [if_pos hd] at h
        injection h with h
        injection h with _ h
        injection h with _ h
        injection h with _ h4
        subst h4
        cases hu
      · rw [if_neg hd] at h
        by_cases hs : env.stop t = true
        · rw [if_pos hs] at h
          injection h with h
          injection h with h1 _
          exact h1.symm
        · rw [if_neg hs] at h
          cases h
  | cons e rest ih =>
      intro sd se t res revs t2 rs h u hu hhot
      simp only [readPhase] at h
      by_cases hd : (sd && se) = true
      · rw [if_pos hd] at h
        injection h with h
        injection h with _ h
        injection h with _ h
        injection h with _ h4
        subst h4
        cases hu
      · rw [if_neg hd] at h
        by_cases hs : env.stop t = true
        · rw [if_pos hs] at h
          injection h with h
          injection h with h1 _
          exact h1.symm
        · rw [if_neg hs] at h
          -- in every surviving branch the recorded reads are t (cold) plus
          -- reads of the recursive call
          have hcont : ∀ (res' : ReadRes) (revs' : List LoopEvent) (t2' : ℕ) (rs' : List ℕ)
              (sd' se' : Bool),
              readPhase cfg env iter rest sd' se' (t + 2) = some (res', revs', t2', rs') →
              res = res' → rs = t :: rs' → res = .rStopped := by
            intro res' revs' t2' rs' sd' se' hr hres hrs
            subst hrs
            rcases List.mem_cons.mp hu with rfl | hu2
            · exact absurd hhot (by simp [hs])
            · rw [hres]
              exact ih sd' se' (t + 2) res' revs' t2' rs' hr u hu2 hhot
          cases e with
          | outLine line =>
              simp only at h
              by_cases hsd : sd = true
              · rw [if_pos hsd] at h; cases h
              · rw [if_neg hsd] at h
                by_cases hc : ((cfg.parse line).isAssistant &&
                    strContains (cfg.parse line).content cfg.completionSignal) = true
                · rw [if_pos hc] at h
                  injection h with h
                  injection h with h1 h
                  injection h with _ h
                  injection h with _ h4
                  subst h4
                  rcases List.mem_cons.mp hu with rfl | hu2
                  · exact absurd hhot (by simp [hs])
                  · cases hu2
                · rw [if_neg hc] at h
                  cases hr : readPhase cfg env iter rest sd se (t + 2) with
                  | none => rw [hr] at h; cases h
                  | some r4 =>
                      obtain ⟨res', revs', t2', rs'⟩ := r4
                      rw [hr] at h
                      injection h with h
                      injection h with h1 h
                      injection h with _ h
                      injection h with _ h4
                      exact hcont res' revs' t2' rs' sd se hr h1.symm h4.symm
          | outEnd =>
              simp only at h
              by_cases hsd : sd = true
              · rw [if_pos hsd] at h; cases h
              · rw [if_neg hsd] at h
                cases hr : readPhase cfg env iter rest true se (t + 2) with
                | none => rw [hr] at h; cases h
                | some r4 =>
                    obtain ⟨res', revs', t2', rs'⟩ := r4
                    rw [hr] at h
                    injection h with h
                    injection h with h1 h
                    injection h with _ h
                    injection h with _ h4
                    exact hcont res' revs' t2' rs' true se hr h1.symm h4.symm
          | errLine line =>
              simp only at h
              by_cases hse : se = true
              · rw [if_pos hse] at h; cases h
              · rw [if_neg hse] at h
                by_cases hf : isCodexGitRepoCheckError cfg line = true
                · rw [if_pos hf] at h
                  injection h with h
                  injection h with h1 h
                  injection h with _ h
                  injection h with _ h4
                  subst h4
                  rcases List.mem_cons.mp hu with rfl | hu2
                  · exact absurd hhot (by simp [hs])
                  · cases hu2
                · rw [if_neg hf] at h
                  cases hr : readPhase cfg env iter rest sd se (t + 2) with
                  | none => rw [hr] at h; cases h
                  | some r4 =>
                      obtain ⟨res', revs', t2', rs'⟩ := r4
                      rw [hr] at h
                      injection h with h
                      injection h with h1 h
                      injection h with _ h
                      injection h with _ h4
                      exact hcont res' revs' t2' rs' sd se hr h1.symm h4.symm
          | errEnd =>
              simp only at h
              by_cases hse : se = true
              · rw [if_pos hse] at h; cases h
              · rw [if_neg hse] at h
                cases hr : readPhase cfg env iter rest sd true (t + 2) with
                | none => rw [hr] at h; cases h
                | some r4 =>
                    obtain ⟨res', revs', t2', rs'⟩ := r4
                    rw [hr] at h
                    injection h with h
                    injection h with h1 h
                    injection h with _ h
                    injection h with _ h4
                    exact hcont res' revs' t2' rs' sd true hr h1.symm h4.symm
          | timerTick iterHit idleHit =>
              simp only at h
              by_cases h1c : (cfg.iterationTimeoutMs.isSome && iterHit) = true
              · rw [if_pos h1c] at h
                injection h with h
                injection h with h1 h
                injection h with _ h
                injection h with _ h4
                subst h4
                rcases List.mem_cons.mp hu with rfl | hu2
                · exact absurd hhot (by simp [hs])
                · cases hu2
              · rw [if_neg h1c] at h
                by_cases h2c : (cfg.idleTimeoutMs.isSome && idleHit) = true
                · rw [if_pos h2c] at h
                  injection h with h
                  injection h with h1 h
                  injection h with _ h
                  injection h with _ h4
                  subst h4
                  rcases List.mem_cons.mp hu with rfl | hu2
                  · exact absurd hhot (by simp [hs])
                  · cases hu2
                · rw [if_neg h2c] at h
                  cases hr : readPhase cfg env iter rest sd se (t + 2) with
                  | none => rw [hr] at h; cases h
                  | some r4 =>
                      obtain ⟨res', revs', t2', rs'⟩ := r4
                      rw [hr] at h
                      injection h with h
                      injection h with h1 h
                      injection h with _ h
                      injection h with _ h4
                      exact hcont res' revs' t2' rs' sd se hr h1.symm h4.symm

/-- Under a cold stop flag and a script with no completion hit and no fatal
guard line, the read loop always reports `rContinue`. -/
theorem readPhase_clean (cfg : EngineCfg) (env : EngineEnv) (iter : ℕ)
    (hstop : ∀ u, env.stop u = false) :
    ∀ (evs : List ChildEvent) (sd se : Bool) (t : ℕ) (res : ReadRes)
      (revs : List LoopEvent) (t2 : ℕ) (rs : List ℕ),
      (∀ s, ChildEvent.outLine s ∈ evs → completionHit cfg s = false) →
      (∀ s, ChildEvent.errLine s ∈ evs → isCodexGitRepoCheckError cfg s = false) →
      readPhase cfg env iter evs sd se t = some (res, revs, t2, rs) →
      res = .rContinue := by
  intro evs
  induction evs with
  | nil =>
      intro sd se t res revs t2 rs _ _ h
      simp only [readPhase] at h
      by_cases hd : (sd && se) = true
      · rw [if_pos hd] at h
        injection h with h
        injection h with h1 _
        exact h1.symm
      · rw [if_neg hd, if_neg (by simp [hstop t])] at h
        cases h
  | cons e rest ih =>
      intro sd se t res revs t2 rs hout herr h
      simp only [readPhase] at h
      by_cases hd : (sd && se) = true
      · rw [if_pos hd] at h
        injection h with h
        injection h with h1 _
        exact h1.symm
      · rw [if_neg hd, if_neg (by simp [hstop t])] at h
        have hout2 : ∀ s, ChildEvent.outLine s ∈ rest → completionHit cfg s = false :=
          fun s hsm => hout s (List.mem_cons_of_mem _ hsm)
        have herr2 : ∀ s, ChildEvent.errLine s ∈ rest → isCodexGitRepoCheckError cfg s = false :=
          fun s hsm => herr s (List.mem_cons_of_mem _ hsm)
        cases e with
        | outLine line =>
            simp only at h
            by_cases hsd : sd = true
            · rw [if_pos hsd] at h; cases h
            · rw [if_neg hsd] at h
              have hno : ¬ ((cfg.parse line).isAssistant &&
                  strContains (cfg.parse line).content cfg.completionSignal) = true := by
                have := hout line (List.mem_cons_self _ _)
                unfold completionHit at this
                simp [this]
              rw [if_neg hno] at h
              cases hr : readPhase cfg env iter rest sd se (t + 2) with
              | none => rw [hr] at h; cases h
              | some r4 =>
                  obtain ⟨res', revs', t2', rs'⟩ := r4
                  rw [hr] at h
                  injection h with h
                  injection h with h1 _
                  rw [← h1]
                  exact ih sd se (t + 2) res' revs' t2' rs' hout2 herr2 hr
        | outEnd =>
            simp only at h
            by_cases hsd : sd = true
            · rw [if_pos hsd] at h; cases h
            · rw [if_neg hsd] at h
              cases hr : readPhase cfg env iter rest true se (t + 2) with
              | none => rw [hr] at h; cases h
              | some r4 =>
                  obtain ⟨res', revs', t2', rs'⟩ := r4
                  rw [hr] at h
                  injection h with h
                  injection h with h1 _
                  rw [← h1]
                  exact ih true se (t + 2) res' revs' t2' rs' hout2 herr2 hr
        | errLine line =>
            simp only at h
            by_cases hse : se = true
            · rw [if_pos hse] at h; cases h
            · rw [if_neg hse] at h
              rw [if_neg (by simp [herr line (List.mem_cons_self _ _)])] at h
              cases hr : readPhase cfg env iter rest sd se (t + 2) with
              | none => rw [hr] at h; cases h
              | some r4 =>
                  obtain ⟨res', revs', t2', rs'⟩ := r4
                  rw [hr] at h
                  injection h with h
                  injection h with h1 _
                  rw [← h1]
                  exact ih sd se (t + 2) res' revs' t2' rs' hout2 herr2 hr
        | errEnd =>
            simp only at h
            by_cases hse : se = true
            · rw [if_pos hse] at h; cases h
            · rw [if_neg hse] at h
              cases hr : readPhase cfg env iter rest sd true (t + 2) with
              | none => rw [hr] at h; cases h
              | some r4 =>
                  obtain ⟨res', revs', t2', rs'⟩ := r4
                  rw [hr] at h
                  injection h with h
                  injection h with h1 _
                  rw [← h1]
                  exact ih sd true (t + 2) res' revs' t2' rs' hout2 herr2 hr
        | timerTick iterHit idleHit =>
            simp only at h
            by_cases h1c : (cfg.iterationTimeoutMs.isSome && iterHit) = true
            · rw [if_pos h1c] at h
              injection h with h
              injection h with h1 _
              exact h1.symm
            · rw [if_neg h1c] at h
              by_cases h2c : (cfg.idleTimeoutMs.isSome && idleHit) = true
              · rw [if_pos h2c] at h
                injection h with h
                injection h with h1 _
                exact h1.symm
              · rw [if_neg h2c] at h
                cases hr : readPhase cfg env iter rest sd se (t + 2) with
                | none => rw [hr] at h; cases h
                | some r4 =>
                    obtain ⟨res', revs', t2', rs'⟩ := r4
                    rw [hr] at h
                    injection h with h
                    injection h with h1 _
                    rw [← h1]
                    exact ih sd se (t + 2) res' revs' t2' rs' hout2 herr2 hr

theorem getLast?_append_singleton {α : Type} (l : List α) (a : α) :
    (l ++ [a]).getLast? = some a := by
  rw [List.getLast?_append_cons]
  rfl

/-- Claim C1 core lemma: whenever one of the recorded stop-flag reads of a
run comes back hot, the run returns `Idle` and its last event is `Stopped`. -/
theorem outerLoop_stop (cfg : EngineCfg) (env : EngineEnv) :
    ∀ (remaining iteration : ℕ) (iters : List IterScript) (t : ℕ)
      (evs : List LoopEvent) (st : LoopState) (tE : ℕ) (rs : List ℕ),
      outerLoop cfg env iteration remaining iters t = some (evs, st, tE, rs) →
      ∀ u ∈ rs, env.stop u = true →
      st = .idle ∧ evs.getLast? = some (.stopped cfg.projectId) := by
  intro remaining
  induction remaining with
  | zero =>
      intro iteration iters t evs st tE rs h u hu hhot
      simp only [outerLoop, Option.some.injEq, Prod.mk.injEq] at h
      obtain ⟨h1, h2, h3, h4⟩ := h
      subst h4
      cases hu
  | succ remaining ih =>
      intro iteration iters t evs st tE rs h u hu hhot
      simp only [outerLoop] at h
      by_cases hs : env.stop t = true
      · rw [if_pos hs] at h
        simp only [Option.some.injEq, Prod.mk.injEq] at h
        obtain ⟨h1, h2, h3, h4⟩ := h
        subst h1 h2
        exact ⟨rfl, rfl⟩
      · rw [if_neg hs] at h
        cases hg : pauseGate env cfg.projectId iteration (t + 1) with
        | none => rw [hg] at h; cases h
        | some g =>
            obtain ⟨b, gevs, t1, rs1⟩ := g
            rw [hg] at h
            cases b with
            | true =>
                simp only [Option.some.injEq, Prod.mk.injEq] at h
                obtain ⟨h1, h2, h3, h4⟩ := h
                subst h1 h2 h4
                refine ⟨rfl, ?_⟩
                rcases pauseGate_shape env cfg.projectId iteration (t + 1) true gevs t1 rs1 hg with
                  ⟨hb, _⟩ | ⟨hb, _⟩ | ⟨_, hg2⟩
                · cases hb
                · cases hb
                · rw [hg2]
                  rfl
            | false =>
                simp only at h
                have hrs1cold : ∀ v ∈ rs1, env.stop v = true → False := by
                  intro v hv hvhot
                  have := pauseGate_stop env cfg.projectId iteration (t + 1) false gevs t1 rs1 hg v hv hvhot
                  cases this
                cases iters with
                | nil => cases h
                | cons script iters2 =>
                    simp only at h
                    cases hsp : script.spawnErr with
                    | some emsg =>
                        rw [hsp] at h
                        simp only at h
                        cases ho : outerLoop cfg env (iteration + 1) remaining iters2 (t1 + 1) with
                        | none => rw [ho] at h; cases h
                        | some o =>
                            obtain ⟨evs4, st4, t4, rs4⟩ := o
                            rw [ho] at h
                            simp only [Option.some.injEq, Prod.mk.injEq] at h
                            obtain ⟨h1, h2, h3, h4⟩ := h
                            subst h1 h2 h4
                            rcases List.mem_cons.mp hu with rfl | hu2
                            · exact absurd hhot (by simp [hs])
                            · rcases List.mem_append.mp hu2 with hu3 | hu3
                              · exact absurd hhot (fun _ => hrs1cold u hu3 hhot)
                              · obtain ⟨hst, hlast⟩ := ih (iteration + 1) iters2 (t1 + 1)
                                  evs4 st4 t4 rs4 ho u hu3 hhot
                                refine ⟨hst, ?_⟩
                                have hne : evs4 ≠ [] := by
                                  intro habs
                                  rw [habs] at hlast
                                  cases hlast
                                rw [show gevs ++ LoopEvent.iterationStart cfg.projectId (iteration + 1) ::
                                    LoopEvent.error cfg.projectId (iteration + 1)
                                      ("Failed to spawn CLI: " ++ emsg) :: evs4 =
                                    (gevs ++ [LoopEvent.iterationStart cfg.projectId (iteration + 1),
                                      LoopEvent.error cfg.projectId (iteration + 1)
                                        ("Failed to spawn CLI: " ++ emsg)]) ++ evs4 by simp]
                                rw [List.getLast?_append_of_ne_nil _ hne]
                                exact hlast
                    | none =>
                        rw [hsp] at h
                        simp only at h
                        cases hr : readPhase cfg env (iteration + 1) script.events false false (t1 + 1) with
                        | none => rw [hr] at h; cases h
                        | some r4 =>
                            obtain ⟨res, revs, t2, rs2⟩ := r4
                            rw [hr] at h
                            cases res with
                            | rStopped =>
                                simp only [Option.some.injEq, Prod.mk.injEq] at h
                                obtain ⟨h1, h2, h3, h4⟩ := h
                                subst h1 h2 h4
                                refine ⟨rfl, ?_⟩
                                rcases readPhase_shape cfg env (iteration + 1) script.events false false
                                    (t1 + 1) .rStopped revs t2 rs2 hr with
                                  ⟨_, outs, _, rfl⟩ | ⟨hcon, _⟩
                                · rw [show gevs ++ LoopEvent.iterationStart cfg.projectId (iteration + 1) ::
                                      (outs ++ [LoopEvent.stopped cfg.projectId]) =
                                      (gevs ++ LoopEvent.iterationStart cfg.projectId (iteration + 1) :: outs)
                                        ++ [LoopEvent.stopped cfg.projectId] by simp]
                                  exact getLast?_append_singleton _ _
                                · exact absurd rfl hcon
                            | rFatal =>
                                simp only [Option.some.injEq, Prod.mk.injEq] at h
                                obtain ⟨h1, h2, h3, h4⟩ := h
                                subst h4
                                rcases List.mem_cons.mp hu with rfl | hu2
                                · exact absurd hhot (by simp [hs])
                                · rcases List.mem_append.mp hu2 with hu3 | hu3
                                  · exact absurd hhot (fun _ => hrs1cold u hu3 hhot)
                                  · have := readPhase_stop cfg env (iteration + 1) script.events false false
                                      (t1 + 1) .rFatal revs t2 rs2 hr u hu3 hhot
                                    cases this
                            | rCompleted =>
                                simp only [Option.some.injEq, Prod.mk.injEq] at h
                                obtain ⟨h1, h2, h3, h4⟩ := h
                                subst h4
                                rcases List.mem_cons.mp hu with rfl | hu2
                                · exact absurd hhot (by simp [hs])
                                · rcases List.mem_append.mp hu2 with hu3 | hu3
                                  · exact absurd hhot (fun _ => hrs1cold u hu3 hhot)
                                  · have := readPhase_stop cfg env (iteration + 1) script.events false false
                                      (t1 + 1) .rCompleted revs t2 rs2 hr u hu3 hhot
                                    cases this
                            | rContinue =>
                                simp only at h
                                cases hg2 : pauseGate env cfg.projectId (iteration + 1) (t2 + 1) with
                                | none => rw [hg2] at h; cases h
                                | some g2 =>
                                    obtain ⟨b2, pevs, t3, rs3⟩ := g2
                                    rw [hg2] at h
                                    have hrs2cold : ∀ v ∈ rs2, env.stop v = true → False := by
                                      intro v hv hvhot
                                      have := readPhase_stop cfg env (iteration + 1) script.events false false
                                        (t1 + 1) .rContinue revs t2 rs2 hr v hv hvhot
                                      cases this
                                    cases b2 with
                                    | true =>
                                        simp only [Option.some.injEq, Prod.mk.injEq] at h
                                        obtain ⟨h1, h2, h3, h4⟩ := h
                                        subst h1 h2 h4
                                        refine ⟨rfl, ?_⟩
                                        rcases pauseGate_shape env cfg.projectId (iteration + 1) (t2 + 1)
                                            true pevs t3 rs3 hg2 with
                                          ⟨hb, _⟩ | ⟨hb, _⟩ | ⟨_, hp2⟩
                                        · cases hb
                                        · cases hb
                                        · rw [hp2]
                                          rw [show gevs ++ LoopEvent.iterationStart cfg.projectId (iteration + 1) ::
                                              (revs ++ [LoopEvent.paused cfg.projectId (iteration + 1),
                                                LoopEvent.stopped cfg.projectId]) =
                                              (gevs ++ LoopEvent.iterationStart cfg.projectId (iteration + 1) ::
                                                revs ++ [LoopEvent.paused cfg.projectId (iteration + 1)]) ++
                                                [LoopEvent.stopped cfg.projectId] by simp]
                                          exact getLast?_append_singleton _ _
                                    | false =>
                                        simp only at h
                                        have hrs3cold : ∀ v ∈ rs3, env.stop v = true → False := by
                                          intro v hv hvhot
                                          have := pauseGate_stop env cfg.projectId (iteration + 1) (t2 + 1)
                                            false pevs t3 rs3 hg2 v hv hvhot
                                          cases this
                                        cases ho : outerLoop cfg env (iteration + 1) remaining iters2 t3 with
                                        | none => rw [ho] at h; cases h
                                        | some o =>
                                            obtain ⟨evs4, st4, t4, rs4⟩ := o
                                            rw [ho] at h
                                            simp only [Option.some.injEq, Prod.mk.injEq] at h
                                            obtain ⟨h1, h2, h3, h4⟩ := h
                                            subst h1 h2 h4
                                            rcases List.mem_cons.mp hu with rfl | hu2
                                            · exact absurd hhot (by simp [hs])
                                            · rcases List.mem_append.mp hu2 with hu3 | hu3
                                              · rcases List.mem_append.mp hu3 with hu4 | hu4
                                                · rcases List.mem_append.mp hu4 with hu5 | hu5
                                                  · exact absurd hhot (fun _ => hrs1cold u hu5 hhot)
                                                  · exact absurd hhot (fun _ => hrs2cold u hu5 hhot)
                                                · exact absurd hhot (fun _ => hrs3cold u hu4 hhot)
                                              · obtain ⟨hst, hlast⟩ :=
                                                  ih (iteration + 1) iters2 t3 evs4 st4 t4 rs4 ho u hu3 hhot
                                                refine ⟨hst, ?_⟩
                                                have hne : evs4 ≠ [] := by
                                                  intro habs
                                                  rw [habs] at hlast
                                                  cases hlast
                                                rw [show gevs ++ LoopEvent.iterationStart cfg.projectId
                                                    (iteration + 1) :: (revs ++ pevs ++ evs4) =
                                                    (gevs ++ LoopEvent.iterationStart cfg.projectId
                                                      (iteration + 1) :: (revs ++ pevs)) ++ evs4 by simp]
                                                rw [List.getLast?_append_of_ne_nil _ hne]
                                                exact hlast

/-- Claim C1, amended: whenever the engine reads the stop flag as set — and
it reads it at every pre-iteration gate, at the top of every read-loop turn
with a live stream, and at every 100 ms tick of a pause wait — it kills any
live child, emits `Stopped` as its final event, and `start` returns `Idle`.
(The stop flag set *after* the final stop read of a run — e.g. while awaiting
the last child exit, after completion detection, or after the fatal guard —
does not prevent the run from terminating `Completed` or `Failed`; see the
counterexample.) -/
theorem engine_stop_observed_idle (cfg : EngineCfg) (env : EngineEnv)
    (res : RunResult) (u : ℕ)
    (hrun : runEngine cfg env = some res) (hu : u ∈ res.stopReads)
    (hhot : env.stop u = true) :
    res.state = .idle ∧ res.trace.getLast? = some (.stopped cfg.projectId) := by
  unfold runEngine at hrun
  cases ho : outerLoop cfg env 0 cfg.maxIterations env.iters 0 with
  | none => rw [ho] at hrun; cases hrun
  | some o =>
      obtain ⟨evs, st, t, rs⟩ := o
      rw [ho] at hrun
      injection hrun with hrun
      subst hrun
      exact outerLoop_stop cfg env cfg.maxIterations 0 env.iters 0 evs st t rs ho u hu hhot

/-- A plain-text adapter parse for the engine scenarios (all lines
assistant). -/
def parseAllAssistant : String → ParsedLine := fun s => ⟨s, .text, true⟩

/-- Engine configuration shared by the C1 scenarios: one iteration. -/
def c1cfg : EngineCfg :=
  ⟨"p1", .claude, 1, "<done>COMPLETE</done>", none, none, parseAllAssistant⟩

/-- Environment for the C1 witness: the stop flag is already set when the
run begins. -/
def c1wEnv : EngineEnv :=
  ⟨fun _ => true, fun _ => false, fun _ => false,
    [⟨none, [.outLine "working", .outEnd, .errEnd]⟩], 0⟩

/-- Claim C1, witness: with the stop flag set from the start, the first
pre-iteration stop read is hot and the run returns `Idle` with `Stopped` as
its only event. -/
theorem engine_stop_observed_idle_witness :
    (⟨[.stopped "p1"], .idle, 1, [0]⟩ : RunResult).state = .idle ∧
    (⟨[.stopped "p1"], .idle, 1, [0]⟩ : RunResult).trace.getLast? = some (.stopped "p1") :=
  engine_stop_observed_idle c1cfg c1wEnv ⟨[.stopped "p1"], .idle, 1, [0]⟩ 0 rfl
    (List.mem_singleton.mpr rfl) rfl

/-- Environment for the C1 counterexample: the stop flag becomes set at step
9, which is after the last stop-flag read of the run (the reads happen at
steps 0, 3, 5 and 7) while the engine is awaiting the final child exit. -/
def c1env : EngineEnv :=
  ⟨fun t => decide (9 ≤ t), fun _ => false, fun _ => false,
    [⟨none, [.outLine "working", .outEnd, .errEnd]⟩], 0⟩

/-- The run produced by `c1cfg`/`c1env`. -/
def c1res : RunResult :=
  ⟨[.iterationStart "p1" 1, .output "p1" 1 "working" false, .maxIterationsReached "p1" 1],
    .failed 1, 11, [0, 3, 5, 7]⟩

/-- Claim C1, counterexample: the stop flag (monotone by construction:
`stop t = decide (9 ≤ t)`) becomes set at step 9, strictly before the run
ends at clock 11, while the engine is awaiting the final child exit — after
its last stop read at step 7.  The run nevertheless emits
`MaxIterationsReached` and returns `Failed 1`, with no `Stopped` event and no
child kill, contradicting the claim that a run whose stop flag is set never
terminates with `MaxIterationsReached`/`Failed`. -/
theorem c1_counterexample :
    runEngine c1cfg c1env = some c1res ∧
    c1env.stop 8 = false ∧ c1env.stop 9 = true ∧ 9 < c1res.clockEnd ∧
    c1res.stopReads = [0, 3, 5, 7] ∧
    c1res.state = .failed 1 ∧
    c1res.trace.getLast? = some (.maxIterationsReached "p1" 1) ∧
    LoopEvent.stopped "p1" ∉ c1res.trace := by
  refine ⟨rfl, rfl, rfl, by decide, rfl, rfl, rfl, by decide⟩

/-- Hypotheses of the exhaustion scenario on one iteration script: the spawn
succeeds and no stream event can complete the run or trip the fatal guard. -/
def CleanIter (cfg : EngineCfg) (it : IterScript) : Prop :=
  it.spawnErr = none ∧
  (∀ s, ChildEvent.outLine s ∈ it.events → completionHit cfg s = false) ∧
  (∀ s, ChildEvent.errLine s ∈ it.events → isCodexGitRepoCheckError cfg s = false)

/-- Claim C5 core lemma: with cold stop/pause flags and clean iteration
scripts, the loop runs its full budget, its `IterationStart` events are
numbered consecutively, and it ends with `MaxIterationsReached` and
`Failed`. -/
theorem outerLoop_exhaustion (cfg : EngineCfg) (env : EngineEnv)
    (hstop : ∀ u, env.stop u = false) (hpause : ∀ u, env.pause u = false) :
    ∀ (remaining iteration : ℕ) (iters : List IterScript) (t : ℕ)
      (evs : List LoopEvent) (st : LoopState) (tE : ℕ) (rs : List ℕ),
      (∀ it ∈ iters, CleanIter cfg it) →
      outerLoop cfg env iteration remaining iters t = some (evs, st, tE, rs) →
      st = .failed (iteration + remaining) ∧
      evs.filter isIterStartEv =
        (List.range' (iteration + 1) remaining).map
          (fun m => .iterationStart cfg.projectId m) ∧
      evs.getLast? = some (.maxIterationsReached cfg.projectId (iteration + remaining)) := by
  intro remaining
  induction remaining with
  | zero =>
      intro iteration iters t evs st tE rs _ h
      simp only [outerLoop, Option.some.injEq, Prod.mk.injEq] at h
      obtain ⟨h1, h2, h3, h4⟩ := h
      subst h1 h2
      refine ⟨by simp, ?_, by simp⟩
      simp [isIterStartEv, List.range']
  | succ remaining ih =>
      intro iteration iters t evs st tE rs hclean h
      simp only [outerLoop] at h
      rw [if_neg (by simp [hstop t])] at h
      have hg : pauseGate env cfg.projectId iteration (t + 1) =
          some (false, [], t + 1 + 1, []) := by
        unfold pauseGate
        rw [if_neg (by simp [hpause])]
      rw [hg] at h
      simp only at h
      cases iters with
      | nil => cases h
      | cons script iters2 =>
          simp only at h
          obtain ⟨hsp, hout, herr⟩ := hclean script (List.mem_cons_self _ _)
          rw [hsp] at h
          simp only at h
          cases hr : readPhase cfg env (iteration + 1) script.events false false (t + 1 + 1 + 1) with
          | none => rw [hr] at h; cases h
          | some r4 =>
              obtain ⟨res, revs, t2, rs2⟩ := r4
              rw [hr] at h
              have hres : res = .rContinue :=
                readPhase_clean cfg env (iteration + 1) hstop script.events false false
                  (t + 1 + 1 + 1) res revs t2 rs2 hout herr hr
              subst hres
              simp only at h
              have hg2 : pauseGate env cfg.projectId (iteration + 1) (t2 + 1) =
                  some (false, [], t2 + 1 + 1, []) := by
                unfold pauseGate
                rw [if_neg (by simp [hpause])]
              rw [hg2] at h
              simp only at h
              cases ho : outerLoop cfg env (iteration + 1) remaining iters2 (t2 + 1 + 1) with
              | none => rw [ho] at h; cases h
              | some o =>
                  obtain ⟨evs4, st4, t4, rs4⟩ := o
                  rw [ho] at h
                  simp only [Option.some.injEq, Prod.mk.injEq] at h
                  obtain ⟨h1, h2, h3, h4⟩ := h
                  subst h1 h2 h4
                  have hclean2 : ∀ it ∈ iters2, CleanIter cfg it :=
                    fun it hit => hclean it (List.mem_cons_of_mem _ hit)
                  obtain ⟨hst, hfil, hlast⟩ :=
                    ih (iteration + 1) iters2 (t2 + 1 + 1) evs4 st4 t4 rs4 hclean2 ho
                  have harith : iteration + 1 + remaining = iteration + (remaining + 1) := by omega
                  have hrevs : ∀ e ∈ revs, OutsEv cfg.projectId (iteration + 1) e := by
                    rcases readPhase_shape cfg env (iteration + 1) script.events false false
                        (t + 1 + 1 + 1) .rContinue revs t2 rs2 hr with ⟨habs, _⟩ | ⟨_, houts⟩
                    · cases habs
                    · exact houts
                  have hrevs0 : revs.filter isIterStartEv = [] := by
                    rw [List.filter_eq_nil_iff]
                    intro e he
                    rcases hrevs e he with ⟨c, b, rfl⟩ | ⟨m, rfl⟩ <;> simp [isIterStartEv]
                  refine ⟨?_, ?_, ?_⟩
                  · rw [hst]
                    congr 1
                  · simp only [List.nil_append, List.append_nil]
                    rw [List.filter_cons]
                    simp only [isIterStartEv, if_true]
                    rw [List.filter_append, hrevs0, List.nil_append, hfil]
                    rw [List.range'_succ]
                    rfl
                  · simp only [List.nil_append, List.append_nil]
                    have hne : evs4 ≠ [] := by
                      intro habs
                      rw [habs] at hlast
                      cases hlast
                    rw [show (LoopEvent.iterationStart cfg.projectId (iteration + 1)) ::
                        (revs ++ evs4) =
                        ((LoopEvent.iterationStart cfg.projectId (iteration + 1)) :: revs)
                          ++ evs4 by simp]
                    rw [List.getLast?_append_of_ne_nil _ hne, hlast, harith]

/-- Claim C5: for every run with `0 < max_iterations` in which every spawned
child exits without the completion signal ever appearing in assistant
content, and neither the stop flag, the pause flag, nor the fatal guard
fires, `start` emits exactly `max_iterations` `IterationStart` events
numbered `1..max_iterations`, its final event is `MaxIterationsReached` with
`iteration = max_iterations`, and it returns `Failed (max_iterations)`. -/
theorem engine_exhaustion (cfg : EngineCfg) (env : EngineEnv) (res : RunResult)
    (_hpos : 0 < cfg.maxIterations)
    (hstop : ∀ u, env.stop u = false) (hpause : ∀ u, env.pause u = false)
    (hclean : ∀ it ∈ env.iters, CleanIter cfg it)
    (hrun : runEngine cfg env = some res) :
    res.state = .failed cfg.maxIterations ∧
    res.trace.filter isIterStartEv =
      (List.range' 1 cfg.maxIterations).map (fun m => .iterationStart cfg.projectId m) ∧
    res.trace.getLast? = some (.maxIterationsReached cfg.projectId cfg.maxIterations) := by
  unfold runEngine at hrun
  cases ho : outerLoop cfg env 0 cfg.maxIterations env.iters 0 with
  | none => rw [ho] at hrun; cases hrun
  | some o =>
      obtain ⟨evs, st, t, rs⟩ := o
      rw [ho] at hrun
      injection hrun with hrun
      subst hrun
      have := outerLoop_exhaustion cfg env hstop hpause cfg.maxIterations 0 env.iters 0
        evs st t rs hclean ho
      simpa using this

/-- Engine configuration for the C5 witness: three iterations, plain-text
parsing. -/
def c5cfg : EngineCfg :=
  ⟨"p1", .claude, 3, "<done>COMPLETE</done>", none, none, parseAllAssistant⟩

/-- One clean iteration script: a line of output, then both streams end. -/
def c5it : IterScript := ⟨none, [.outLine "working", .outEnd, .errEnd]⟩

/-- Environment for the C5 witness: flags never set, three clean scripts. -/
def c5env : EngineEnv :=
  ⟨fun _ => false, fun _ => false, fun _ => false, [c5it, c5it, c5it], 0⟩

/-- The run produced by `c5cfg`/`c5env`. -/
def c5res : RunResult :=
  ⟨[.iterationStart "p1" 1, .output "p1" 1 "working" false,
    .iterationStart "p1" 2, .output "p1" 2 "working" false,
    .iterationStart "p1" 3, .output "p1" 3 "working" false,
    .maxIterationsReached "p1" 3],
    .failed 3, 33, [0, 3, 5, 7, 11, 14, 16, 18, 22, 25, 27, 29]⟩

/-- Claim C5, witness: the scenario of the spec (`max_iterations = 3`, three
`IterationStart`/`Output` rounds, then `MaxIterationsReached 3` and
`Failed 3`). -/
theorem engine_exhaustion_witness :
    c5res.state = .failed 3 ∧
    c5res.trace.filter isIterStartEv =
      (List.range' 1 3).map (fun m => .iterationStart "p1" m) ∧
    c5res.trace.getLast? = some (.maxIterationsReached "p1" 3) := by
  have hclean : ∀ it ∈ c5env.iters, CleanIter c5cfg it := by
    intro it hit
    have heq : it = c5it := by
      rcases List.mem_cons.mp hit with rfl | hit2
      · rfl
      · rcases List.mem_cons.mp hit2 with rfl | hit3
        · rfl
        · rcases List.mem_cons.mp hit3 with rfl | hit4
          · rfl
          · cases hit4
    subst heq
    refine ⟨rfl, ?_, ?_⟩
    · intro s hs
      have hseq : s = "working" := by
        rcases List.mem_cons.mp hs with h1 | h1
        · injection h1
        · rcases List.mem_cons.mp h1 with h2 | h2
          · cases h2
          · rcases List.mem_cons.mp h2 with h3 | h3
            · cases h3
            · cases h3
      subst hseq
      decide
    · intro s hs
      rcases List.mem_cons.mp hs with h1 | h1
      · cases h1
      · rcases List.mem_cons.mp h1 with h2 | h2
        · cases h2
        · rcases List.mem_cons.mp h2 with h3 | h3
          · cases h3
          · cases h3
  exact engine_exhaustion c5cfg c5env c5res (by decide) (fun _ => rfl) (fun _ => rfl)
    hclean rfl

/-- Splitting a decomposition against a cons cell. -/
theorem cons_split {α : Type} (y : α) (tail pre post : List α) (x : α)
    (h : pre ++ x :: post = y :: tail) :
    (pre = [] ∧ x = y ∧ post = tail) ∨
    (∃ pre2, pre = y :: pre2 ∧ pre2 ++ x :: post = tail) := by
  cases pre with
  | nil =>
      simp only [List.nil_append, List.cons.injEq] at h
      exact Or.inl ⟨rfl, h.1, h.2⟩
  | cons p pre2 =>
      simp only [List.cons_append, List.cons.injEq] at h
      exact Or.inr ⟨pre2, by rw [h.1], h.2⟩

/-- Splitting a decomposition against two leading cons cells. -/
theorem cons2_split {α : Type} (y z : α) (tail pre post : List α) (x : α)
    (h : pre ++ x :: post = y :: z :: tail) :
    (pre = [] ∧ x = y ∧ post = z :: tail) ∨
    (pre = [y] ∧ x = z ∧ post = tail) ∨
    (∃ pre2, pre = y :: z :: pre2 ∧ pre2 ++ x :: post = tail) := by
  rcases cons_split y (z :: tail) pre post x h with ⟨rfl, rfl, rfl⟩ | ⟨pre2, rfl, h2⟩
  · exact Or.inl ⟨rfl, rfl, rfl⟩
  · rcases cons_split z tail pre2 post x h2 with ⟨rfl, rfl, rfl⟩ | ⟨pre3, rfl, h3⟩
    · exact Or.inr (Or.inl ⟨rfl, rfl, rfl⟩)
    · exact Or.inr (Or.inr ⟨pre3, rfl, h3⟩)

/-- Splitting a decomposition against an arbitrary leading segment: either
the distinguished element lies in the segment, or the decomposition
continues in the tail. -/
theorem append_split_mem {α : Type} :
    ∀ (seg tail pre post : List α) (x : α),
      pre ++ x :: post = seg ++ tail →
      x ∈ seg ∨ (∃ pre2, pre = seg ++ pre2 ∧ pre2 ++ x :: post = tail) := by
  intro seg
  induction seg with
  | nil =>
      intro tail pre post x h
      exact Or.inr ⟨pre, by simp, by simpa using h⟩
  | cons y seg2 ih =>
      intro tail pre post x h
      rcases cons_split y (seg2 ++ tail) pre post x (by simpa using h) with
        ⟨rfl, rfl, rfl⟩ | ⟨pre2, rfl, h2⟩
      · exact Or.inl (List.mem_cons_self _ _)
      · rcases ih tail pre2 post x h2 with hmem | ⟨pre3, rfl, h3⟩
        · exact Or.inl (List.mem_cons_of_mem _ hmem)
        · exact Or.inr ⟨pre3, by simp, h3⟩

/-- The C2 trace invariant at one decomposition point `trace = pre ++ x ::
post` of a loop run started with `base` completed iterations: a `Paused n`
event satisfies `n = base + (number of IterationStart events before it)` and
is immediately followed by `Resumed n` or `Stopped`; an `IterationStart m`
event satisfies `m = base + (number of IterationStart events before it) + 1`. -/
def PausePos (pid : String) (base : ℕ) (pre : List LoopEvent) (x : LoopEvent)
    (post : List LoopEvent) : Prop :=
  (∀ n, x = .paused pid n →
    n = base + countIS pre ∧
      (post.head? = some (.resumed pid n) ∨ post.head? = some (.stopped pid))) ∧
  (∀ m, x = .iterationStart pid m → m = base + countIS pre + 1)

/-- Events that are neither `Paused` nor `IterationStart` satisfy the
invariant trivially. -/
theorem pausePos_triv (pid : String) (base : ℕ) (pre : List LoopEvent)
    (x : LoopEvent) (post : List LoopEvent)
    (h1 : ∀ n, x ≠ .paused pid n) (h2 : ∀ m, x ≠ .iterationStart pid m) :
    PausePos pid base pre x post :=
  ⟨fun n hx => absurd hx (h1 n), fun m hx => absurd hx (h2 m)⟩

theorem pausePos_of_outs (pid : String) (iter : ℕ) (base : ℕ)
    (pre : List LoopEvent) (x : LoopEvent) (post : List LoopEvent)
    (h : OutsEv pid iter x) :
    PausePos pid base pre x post := by
  rcases h with ⟨c, b, rfl⟩ | ⟨m, rfl⟩ <;>
    exact pausePos_triv _ _ _ _ _ (fun n hx => by cases hx) (fun m2 hx => by cases hx)

/-- Shifting the invariant across a prefix of already-accounted events. -/
theorem pausePos_append (pid : String) (base : ℕ) (A pre2 post : List LoopEvent)
    (x : LoopEvent) (h : PausePos pid (base + countIS A) pre2 x post) :
    PausePos pid base (A ++ pre2) x post := by
  constructor
  · intro n hx
    obtain ⟨hn, hp⟩ := h.1 n hx
    refine ⟨?_, hp⟩
    rw [countIS_append]
    omega
  · intro m hx
    have := h.2 m hx
    rw [countIS_append]
    omega

theorem pausePos_append_zero (pid : String) (base : ℕ) (A pre2 post : List LoopEvent)
    (x : LoopEvent) (hA : countIS A = 0) (h : PausePos pid base pre2 x post) :
    PausePos pid base (A ++ pre2) x post := by
  apply pausePos_append
  rw [hA, Nat.add_zero]
  exact h

theorem pausePos_append_one (pid : String) (base : ℕ) (A pre2 post : List LoopEvent)
    (x : LoopEvent) (hA : countIS A = 1) (h : PausePos pid (base + 1) pre2 x post) :
    PausePos pid base (A ++ pre2) x post := by
  apply pausePos_append
  rw [hA]
  exact h

/-- Lifting the invariant across a pre-iteration pause-gate segment. -/
theorem pausePos_gevs (pid : String) (iteration : ℕ) (gevs tl : List LoopEvent)
    (hgor : gevs = [] ∨ gevs = [.paused pid iteration, .resumed pid iteration])
    (htl : ∀ pre2 x post2, pre2 ++ x :: post2 = tl →
      PausePos pid iteration pre2 x post2) :
    ∀ pre x post, pre ++ x :: post = gevs ++ tl →
      PausePos pid iteration pre x post := by
  intro pre x post h
  rcases hgor with rfl | rfl
  · exact htl pre x post (by simpa using h)
  · rcases cons2_split _ _ _ _ _ _ (by simpa using h) with
      ⟨rfl, rfl, rfl⟩ | ⟨rfl, rfl, rfl⟩ | ⟨pre2, rfl, h5⟩
    · refine ⟨fun n hx => ?_, fun m hx => by cases hx⟩
      injection hx with _ hn
      subst hn
      exact ⟨rfl, Or.inl rfl⟩
    · exact pausePos_triv _ _ _ _ _ (fun n hx => by cases hx) (fun m hx => by cases hx)
    · exact pausePos_append_zero pid iteration
        [LoopEvent.paused pid iteration, LoopEvent.resumed pid iteration]
        pre2 post x rfl (htl pre2 x post h5)

/-- Lifting the invariant across the `IterationStart` event that opens an
iteration. -/
theorem pausePos_start (pid : String) (iteration : ℕ) (rest : List LoopEvent)
    (hrest : ∀ pre2 x post2, pre2 ++ x :: post2 = rest →
      PausePos pid (iteration + 1) pre2 x post2) :
    ∀ pre x post,
      pre ++ x :: post = LoopEvent.iterationStart pid (iteration + 1) :: rest →
      PausePos pid iteration pre x post := by
  intro pre x post h
  rcases cons_split _ _ _ _ _ h with ⟨rfl, rfl, rfl⟩ | ⟨pre2, rfl, h2⟩
  · constructor
    · intro n hx
      cases hx
    · intro m hx
      injection hx with _ hm
      subst hm
      rfl
  · exact pausePos_append_one pid iteration [LoopEvent.iterationStart pid (iteration + 1)]
      pre2 post x rfl (hrest pre2 x post h2)

/-- Claim C2 core lemma: every decomposition point of a loop-run trace
satisfies the pause/iteration-numbering invariant `PausePos`. -/
theorem outerLoop_pause_shape (cfg : EngineCfg) (env : EngineEnv) :
    ∀ (remaining iteration : ℕ) (iters : List IterScript) (t : ℕ)
      (evs : List LoopEvent) (st : LoopState) (tE : ℕ) (rs : List ℕ),
      outerLoop cfg env iteration remaining iters t = some (evs, st, tE, rs) →
      ∀ pre x post, evs = pre ++ x :: post →
        PausePos cfg.projectId iteration pre x post := by
  intro remaining
  induction remaining with
  | zero =>
      intro iteration iters t evs st tE rs h pre x post heq
      simp only [outerLoop, Option.some.injEq, Prod.mk.injEq] at h
      obtain ⟨h1, h2, h3, h4⟩ := h
      rw [heq] at h1
      rcases cons_split _ _ _ _ _ h1.symm with ⟨rfl, rfl, rfl⟩ | ⟨pre2, rfl, h5⟩
      · exact pausePos_triv _ _ _ _ _ (fun n hx => by cases hx) (fun m hx => by cases hx)
      · exact absurd h5 (by simp)
  | succ remaining ih =>
      intro iteration iters t evs st tE rs h pre x post heq
      simp only [outerLoop] at h
      by_cases hs : env.stop t = true
      · rw [if_pos hs] at h
        simp only [Option.some.injEq, Prod.mk.injEq] at h
        obtain ⟨h1, h2, h3, h4⟩ := h
        rw [heq] at h1
        rcases cons_split _ _ _ _ _ h1.symm with ⟨rfl, rfl, rfl⟩ | ⟨pre2, rfl, h5⟩
        · exact pausePos_triv _ _ _ _ _ (fun n hx => by cases hx) (fun m hx => by cases hx)
        · exact absurd h5 (by simp)
      · rw [if_neg hs] at h
        cases hg : pauseGate env cfg.projectId iteration (t + 1) with
        | none => rw [hg] at h; cases h
        | some g =>
            obtain ⟨b, gevs, t1, rs1⟩ := g
            rw [hg] at h
            cases b with
            | true =>
                simp only [Option.some.injEq, Prod.mk.injEq] at h
                obtain ⟨h1, h2, h3, h4⟩ := h
                rw [heq] at h1
                rcases pauseGate_shape env cfg.projectId iteration (t + 1) true gevs t1 rs1 hg with
                  ⟨hb, _⟩ | ⟨hb, _⟩ | ⟨_, hg2⟩
                · cases hb
                · cases hb
                · rw [hg2] at h1
                  rcases cons2_split _ _ _ _ _ _ h1.symm with
                    ⟨rfl, rfl, rfl⟩ | ⟨rfl, rfl, rfl⟩ | ⟨pre2, rfl, h5⟩
                  · refine ⟨fun n hx => ?_, fun m hx => by cases hx⟩
                    injection hx with _ hn
                    subst hn
                    exact ⟨rfl, Or.inr rfl⟩
                  · exact pausePos_triv _ _ _ _ _ (fun n hx => by cases hx)
                      (fun m hx => by cases hx)
                  · exact absurd h5 (by simp)
            | false =>
                simp only at h
                have hgor : gevs = [] ∨
                    gevs = [.paused cfg.projectId iteration, .resumed cfg.projectId iteration] := by
                  rcases pauseGate_shape env cfg.projectId iteration (t + 1) false gevs t1 rs1 hg with
                    ⟨_, hgevs⟩ | ⟨_, hgevs⟩ | ⟨hb, _⟩
                  · exact Or.inl hgevs
                  · exact Or.inr hgevs
                  · cases hb
                cases iters with
                | nil => cases h
                | cons script iters2 =>
                    simp only at h
                    cases hsp : script.spawnErr with
                    | some emsg =>
                        rw [hsp] at h
                        simp only at h
                        cases ho : outerLoop cfg env (iteration + 1) remaining iters2 (t1 + 1) with
                        | none => rw [ho] at h; cases h
                        | some o =>
                            obtain ⟨evs4, st4, t4, rs4⟩ := o
                            rw [ho] at h
                            simp only [Option.some.injEq, Prod.mk.injEq] at h
                            obtain ⟨h1, h2, h3, h4⟩ := h
                            rw [heq] at h1
                            refine pausePos_gevs cfg.projectId iteration gevs _ hgor
                              (pausePos_start cfg.projectId iteration _ ?_) pre x post h1.symm
                            intro pre2 x2 post2 h5
                            rcases cons_split _ _ _ _ _ h5 with ⟨rfl, rfl, rfl⟩ | ⟨pre3, rfl, h6⟩
                            · exact pausePos_triv _ _ _ _ _ (fun n hx => by cases hx)
                                (fun m hx => by cases hx)
                            · exact pausePos_append_zero cfg.projectId (iteration + 1)
                                [LoopEvent.error cfg.projectId (iteration + 1)
                                  ("Failed to spawn CLI: " ++ emsg)] pre3 post2 x2
                                rfl
                                (ih (iteration + 1) iters2 (t1 + 1) evs4 st4 t4 rs4 ho
                                  pre3 x2 post2 h6.symm)
                    | none =>
                        rw [hsp] at h
                        simp only at h
                        cases hr : readPhase cfg env (iteration + 1) script.events false false
                            (t1 + 1) with
                        | none => rw [hr] at h; cases h
                        | some r4 =>
                            obtain ⟨res, revs, t2, rs2⟩ := r4
                            rw [hr] at h
                            cases res with
                            | rStopped =>
                                simp only [Option.some.injEq, Prod.mk.injEq] at h
                                obtain ⟨h1, h2, h3, h4⟩ := h
                                rw [heq] at h1
                                rcases readPhase_shape cfg env (iteration + 1) script.events false
                                    false (t1 + 1) .rStopped revs t2 rs2 hr with
                                  ⟨_, outs, houts, hrevs⟩ | ⟨hcon, _⟩
                                · rw [hrevs] at h1
                                  refine pausePos_gevs cfg.projectId iteration gevs _ hgor
                                    (pausePos_start cfg.projectId iteration _ ?_) pre x post h1.symm
                                  intro pre2 x2 post2 h5
                                  have hmem : x2 ∈ outs ++ [LoopEvent.stopped cfg.projectId] := by
                                    rw [← h5]
                                    simp
                                  rcases List.mem_append.mp hmem with hm | hm
                                  · exact pausePos_of_outs cfg.projectId (iteration + 1) _ _ _ _
                                      (houts x2 hm)
                                  · rcases List.mem_singleton.mp hm with rfl
                                    exact pausePos_triv _ _ _ _ _ (fun n hx => by cases hx)
                                      (fun m hx => by cases hx)
                                · exact absurd rfl hcon
                            | rFatal =>
                                simp only [Option.some.injEq, Prod.mk.injEq] at h
                                obtain ⟨h1, h2, h3, h4⟩ := h
                                rw [heq] at h1
                                rcases readPhase_shape cfg env (iteration + 1) script.events false
                                    false (t1 + 1) .rFatal revs t2 rs2 hr with
                                  ⟨habs, _⟩ | ⟨_, houts⟩
                                · cases habs
                                · refine pausePos_gevs cfg.projectId iteration gevs _ hgor
                                    (pausePos_start cfg.projectId iteration _ ?_) pre x post h1.symm
                                  intro pre2 x2 post2 h5
                                  have hmem : x2 ∈ revs := by
                                    rw [← h5]
                                    simp
                                  exact pausePos_of_outs cfg.projectId (iteration + 1) _ _ _ _
                                    (houts x2 hmem)
                            | rCompleted =>
                                simp only [Option.some.injEq, Prod.mk.injEq] at h
                                obtain ⟨h1, h2, h3, h4⟩ := h
                                rw [heq] at h1
                                rcases readPhase_shape cfg env (iteration + 1) script.events false
                                    false (t1 + 1) .rCompleted revs t2 rs2 hr with
                                  ⟨habs, _⟩ | ⟨_, houts⟩
                                · cases habs
                                · refine pausePos_gevs cfg.projectId iteration gevs _ hgor
                                    (pausePos_start cfg.projectId iteration _ ?_) pre x post h1.symm
                                  intro pre2 x2 post2 h5
                                  have hmem : x2 ∈ revs ++
                                      [LoopEvent.completed cfg.projectId (iteration + 1)] := by
                                    rw [← h5]
                                    simp
                                  rcases List.mem_append.mp hmem with hm | hm
                                  · exact pausePos_of_outs cfg.projectId (iteration + 1) _ _ _ _
                                      (houts x2 hm)
                                  · rcases List.mem_singleton.mp hm with rfl
                                    exact pausePos_triv _ _ _ _ _ (fun n hx => by cases hx)
                                      (fun m hx => by cases hx)
                            | rContinue =>
                                simp only at h
                                have houts : ∀ e ∈ revs, OutsEv cfg.projectId (iteration + 1) e := by
                                  rcases readPhase_shape cfg env (iteration + 1) script.events false
                                      false (t1 + 1) .rContinue revs t2 rs2 hr with
                                    ⟨habs, _⟩ | ⟨_, houts⟩
                                  · cases habs
                                  · exact houts
                                have hrevs0 : countIS revs = 0 := countIS_eq_zero_of_outs houts
                                cases hg2 : pauseGate env cfg.projectId (iteration + 1) (t2 + 1) with
                                | none => rw [hg2] at h; cases h
                                | some g2 =>
                                    obtain ⟨b2, pevs, t3, rs3⟩ := g2
                                    rw [hg2] at h
                                    cases b2 with
                                    | true =>
                                        simp only [Option.some.injEq, Prod.mk.injEq] at h
                                        obtain ⟨h1, h2, h3, h4⟩ := h
                                        rw [heq] at h1
                                        rcases pauseGate_shape env cfg.projectId (iteration + 1)
                                            (t2 + 1) true pevs t3 rs3 hg2 with
                                          ⟨hb, _⟩ | ⟨hb, _⟩ | ⟨_, hp2⟩
                                        · cases hb
                                        · cases hb
                                        · rw [hp2] at h1
                                          refine pausePos_gevs cfg.projectId iteration gevs _ hgor
                                            (pausePos_start cfg.projectId iteration _ ?_)
                                            pre x post h1.symm
                                          intro pre2 x2 post2 h5
                                          rcases append_split_mem revs _ pre2 post2 x2 h5 with
                                            hm | ⟨pre3, rfl, h6⟩
                                          · exact pausePos_of_outs cfg.projectId (iteration + 1)
                                              _ _ _ _ (houts x2 hm)
                                          · rcases cons2_split _ _ _ _ _ _ h6 with
                                              ⟨rfl, rfl, rfl⟩ | ⟨rfl, rfl, rfl⟩ | ⟨pre4, rfl, h7⟩
                                            · refine ⟨fun n hx => ?_, fun m hx => by cases hx⟩
                                              injection hx with _ hn
                                              subst hn
                                              refine ⟨?_, Or.inr rfl⟩
                                              rw [countIS_append, hrevs0]
                                              rfl
                                            · exact pausePos_triv _ _ _ _ _
                                                (fun n hx => by cases hx) (fun m hx => by cases hx)
                                            · exact absurd h7 (by simp)
                                    | false =>
                                        simp only at h
                                        have hpor : pevs = [] ∨
                                            pevs = [.paused cfg.projectId (iteration + 1),
                                              .resumed cfg.projectId (iteration + 1)] := by
                                          rcases pauseGate_shape env cfg.projectId (iteration + 1)
                                              (t2 + 1) false pevs t3 rs3 hg2 with
                                            ⟨_, hp⟩ | ⟨_, hp⟩ | ⟨hb, _⟩
                                          · exact Or.inl hp
                                          · exact Or.inr hp
                                          · cases hb
                                        cases ho : outerLoop cfg env (iteration + 1) remaining
                                            iters2 t3 with
                                        | none => rw [ho] at h; cases h
                                        | some o =>
                                            obtain ⟨evs4, st4, t4, rs4⟩ := o
                                            rw [ho] at h
                                            simp only [Option.some.injEq, Prod.mk.injEq] at h
                                            obtain ⟨h1, h2, h3, h4⟩ := h
                                            rw [heq] at h1
                                            have hev4 : ∀ pre5 x5 post5,
                                                pre5 ++ x5 :: post5 = evs4 →
                                                PausePos cfg.projectId (iteration + 1) pre5 x5 post5 :=
                                              fun pre5 x5 post5 h8 =>
                                                ih (iteration + 1) iters2 t3 evs4 st4 t4 rs4 ho
                                                  pre5 x5 post5 h8.symm
                                            have h1b : pre ++ x :: post =
                                                gevs ++ (LoopEvent.iterationStart cfg.projectId
                                                  (iteration + 1) :: (revs ++ (pevs ++ evs4))) := by
                                              rw [← h1]
                                              simp
                                            refine pausePos_gevs cfg.projectId iteration gevs _ hgor
                                              (pausePos_start cfg.projectId iteration _ ?_)
                                              pre x post h1b
                                            intro pre2 x2 post2 h5
                                            rcases append_split_mem revs _ pre2 post2 x2 h5 with
                                              hm | ⟨pre3, rfl, h6⟩
                                            · exact pausePos_of_outs cfg.projectId (iteration + 1)
                                                _ _ _ _ (houts x2 hm)
                                            · rcases hpor with rfl | rfl
                                              · refine pausePos_append_zero cfg.projectId
                                                  (iteration + 1) revs pre3 post2 x2 hrevs0 ?_
                                                exact hev4 pre3 x2 post2 (by simpa using h6)
                                              · rcases cons2_split _ _ _ _ _ _ h6 with
                                                  ⟨rfl, rfl, rfl⟩ | ⟨rfl, rfl, rfl⟩ | ⟨pre4, rfl, h7⟩
                                                · refine ⟨fun n hx => ?_, fun m hx => by cases hx⟩
                                                  injection hx with _ hn
                                                  subst hn
                                                  refine ⟨?_, Or.inl rfl⟩
                                                  rw [countIS_append, hrevs0]
                                                  rfl
                                                · exact pausePos_triv _ _ _ _ _
                                                    (fun n hx => by cases hx)
                                                    (fun m hx => by cases hx)
                                                · have hshape : revs ++
                                                      (LoopEvent.paused cfg.projectId (iteration + 1) ::
                                                        LoopEvent.resumed cfg.projectId (iteration + 1) ::
                                                          pre4) =
                                                      (revs ++
                                                        [LoopEvent.paused cfg.projectId (iteration + 1),
                                                          LoopEvent.resumed cfg.projectId
                                                            (iteration + 1)]) ++ pre4 := by
                                                    simp
                                                  rw [hshape]
                                                  refine pausePos_append_zero cfg.projectId
                                                    (iteration + 1)
                                                    (revs ++
                                                      [LoopEvent.paused cfg.projectId (iteration + 1),
                                                        LoopEvent.resumed cfg.projectId (iteration + 1)])
                                                    pre4 post2 x2 ?_
                                                    (hev4 pre4 x2 post2 h7)
                                                  rw [countIS_append, hrevs0]
                                                  rfl

/-- Decomposing a trace at an indexed element. -/
theorem trace_decomp {α : Type} {l : List α} {i : ℕ} {x : α}
    (h : l[i]? = some x) :
    l = l.take i ++ x :: l.drop (i + 1) ∧
    l[i + 1]? = (l.drop (i + 1)).head? := by
  have hlt : i < l.length := by
    by_contra hge
    rw [List.getElem?_eq_none (by omega)] at h
    cases h
  have hx : l[i] = x := by
    have := List.getElem?_eq_getElem hlt
    rw [this] at h
    injection h
  constructor
  · conv_lhs => rw [← List.take_append_drop i l]
    rw [List.drop_eq_getElem_cons hlt, hx]
  · rw [List.head?_eq_getElem?, List.getElem?_drop]

/-- Claim C2, amended: in every engine run, a `Paused n` event occurs only at
an iteration boundary — exactly `n` `IterationStart` events precede it — and
is *immediately* followed by `Resumed n` (same iteration counter) or by
`Stopped`, so nothing (no `IterationStart`, no `Output`) is emitted while
paused; moreover every `IterationStart m` event satisfies `m = (number of
IterationStart events before it) + 1`, so the first iteration started after
`Resumed n` is `n + 1`.  (The engine never suspends mid-iteration, but if
iteration `n` ends the run — completion detection, fatal guard, or stop — no
`Paused n` is emitted at all even though the pause flag was set while
iteration `n` was in progress; see the counterexample.) -/
theorem engine_pause_trace_spec (cfg : EngineCfg) (env : EngineEnv) (res : RunResult)
    (i n : ℕ) (hrun : runEngine cfg env = some res)
    (hp : res.trace[i]? = some (.paused cfg.projectId n)) :
    countIS (res.trace.take i) = n ∧
    (res.trace[i + 1]? = some (.resumed cfg.projectId n) ∨
      res.trace[i + 1]? = some (.stopped cfg.projectId)) ∧
    (∀ j m, res.trace[j]? = some (.iterationStart cfg.projectId m) →
      m = countIS (res.trace.take j) + 1) := by
  unfold runEngine at hrun
  cases ho : outerLoop cfg env 0 cfg.maxIterations env.iters 0 with
  | none => rw [ho] at hrun; cases hrun
  | some o =>
      obtain ⟨evs, st, t, rs⟩ := o
      rw [ho] at hrun
      injection hrun with hrun
      subst hrun
      dsimp only at hp ⊢
      obtain ⟨hdec, hnext⟩ := trace_decomp hp
      have hpos := outerLoop_pause_shape cfg env cfg.maxIterations 0 env.iters 0
        evs st t rs ho (evs.take i) _ (evs.drop (i + 1)) hdec
      obtain ⟨hcount, hhead⟩ := hpos.1 n rfl
      refine ⟨by omega, ?_, ?_⟩
      · rw [hnext]
        exact hhead
      · intro j m hj
        obtain ⟨hdec2, _⟩ := trace_decomp hj
        have hpos2 := outerLoop_pause_shape cfg env cfg.maxIterations 0 env.iters 0
          evs st t rs ho (evs.take j) _ (evs.drop (j + 1)) hdec2
        have := hpos2.2 m rfl
        omega

/-- Engine configuration for the C2 scenarios. -/
def c2wcfg : EngineCfg :=
  ⟨"p1", .claude, 2, "<done>COMPLETE</done>", none, none, parseAllAssistant⟩

/-- Environment for the C2 witness: the pause flag is set at step 10 — read
by the post-iteration gate of iteration 1 — and the resume notification wins
the wait select at step 11. -/
def c2wenv : EngineEnv :=
  ⟨fun _ => false, fun t => decide (t = 10), fun t => decide (t = 11),
    [⟨none, [.outLine "working", .outEnd, .errEnd]⟩,
      ⟨none, [.outLine "working", .outEnd, .errEnd]⟩], 3⟩

/-- The run produced by `c2wcfg`/`c2wenv`: iteration 1 finishes, `Paused 1`
then `Resumed 1` are emitted back to back, then iteration 2 starts. -/
def c2wres : RunResult :=
  ⟨[.iterationStart "p1" 1, .output "p1" 1 "working" false,
    .paused "p1" 1, .resumed "p1" 1,
    .iterationStart "p1" 2, .output "p1" 2 "working" false,
    .maxIterationsReached "p1" 2],
    .failed 2, 24, [0, 3, 5, 7, 13, 16, 18, 20]⟩

/-- Claim C2, witness: the amended theorem applied to the concrete
pause/resume run at the `Paused 1` event (index 2 of the trace). -/
theorem engine_pause_trace_spec_witness :
    countIS (c2wres.trace.take 2) = 1 ∧
    (c2wres.trace[2 + 1]? = some (.resumed "p1" 1) ∨
      c2wres.trace[2 + 1]? = some (.stopped "p1")) :=
  ⟨(engine_pause_trace_spec c2wcfg c2wenv c2wres 2 1 rfl rfl).1,
    (engine_pause_trace_spec c2wcfg c2wenv c2wres 2 1 rfl rfl).2.1⟩

/-- Environment for the C2 counterexample: the pause flag becomes set at
step 3, while iteration 1's read loop is in progress (the run ends at clock
6), and iteration 1 detects the completion signal. -/
def c2cenv : EngineEnv :=
  ⟨fun _ => false, fun t => decide (3 ≤ t), fun _ => false,
    [⟨none, [.outLine "<done>COMPLETE</done>"]⟩], 0⟩

/-- Engine configuration for the C2 counterexample. -/
def c2ccfg : EngineCfg :=
  ⟨"p1", .claude, 5, "<done>COMPLETE</done>", none, none, parseAllAssistant⟩

/-- The run produced by `c2ccfg`/`c2cenv`. -/
def c2cres : RunResult :=
  ⟨[.iterationStart "p1" 1, .output "p1" 1 "<done>COMPLETE</done>" false,
    .completed "p1" 1],
    .completed 1, 6, [0, 3]⟩

/-- Claim C2, counterexample: the pause flag (monotone by construction) is
set at step 3, while iteration 1 is in progress, but iteration 1 detects the
completion signal: the engine emits `Completed 1` and returns — it never
emits `Paused 1`, contradicting the claim that once the pause flag is set
mid-iteration the engine finishes the iteration *and then emits
`Paused{n}`*. -/
theorem c2_counterexample :
    runEngine c2ccfg c2cenv = some c2cres ∧
    c2cenv.pause 2 = false ∧ c2cenv.pause 3 = true ∧ 3 < c2cres.clockEnd ∧
    c2cres.state = .completed 1 ∧
    c2cres.trace = [.iterationStart "p1" 1,
      .output "p1" 1 "<done>COMPLETE</done>" false, .completed "p1" 1] ∧
    LoopEvent.paused "p1" 1 ∉ c2cres.trace := by
  refine ⟨rfl, rfl, rfl, by decide, rfl, rfl, by decide⟩

/-! ### Log sanitization (`security/mod.rs`)

`sanitize_log` applies six regex `replace_all` passes in order, each
replacing every leftmost-first match with `[REDACTED]`.  The `regex` crate's
leftmost-first (Perl-preference) semantics are hand-compiled here: each
pattern is a literal alternation followed by an optional single-character
class, an optional whitespace run, optional quotes and a greedy value-class
run with a minimum count.  For these patterns greedy matching without
backtracking coincides with leftmost-first semantics because the optional
quote classes are disjoint from the value classes and the literal
alternatives are pairwise prefix-incompatible.  `\s` and the alphanumeric
classes are modeled over ASCII. -/

/-- ASCII letter. -/
def isAsciiLetter (c : Char) : Bool :=
  ('a' ≤ c && c ≤ 'z') || ('A' ≤ c && c ≤ 'Z')

/-- `[a-zA-Z0-9]`. -/
def isAlnumAscii (c : Char) : Bool :=
  isAsciiLetter c || ('0' ≤ c && c ≤ '9')

/-- `\s` (ASCII). -/
def isWsChar (c : Char) : Bool :=
  c = ' ' || c = '\t' || c = '\n' || c = '\r' || c = '\x0b' || c = '\x0c'

/-- `['\"]`. -/
def isQuoteChar (c : Char) : Bool :=
  c = '\x27' || c = '"'

/-- A hand-compiled secret pattern: literal alternatives (tried in order),
an optional required single-character class (`[=:]`), an optional `\s*` run,
an optional opening quote, a greedy value-class run with a minimum length,
and an optional closing quote. -/
structure SPattern where
  alts : List (List Char)
  sep : Option (Char → Bool)
  skip : Bool
  openQ : Bool
  valClass : Char → Bool
  valMin : ℕ
  closeQ : Bool

/-- The optional separator character (`[=:]` in patterns 3 and 6). -/
def sepCheck (sep : Option (Char → Bool)) (s : List Char) : Option ℕ :=
  match sep with
  | none => some 0
  | some cl =>
      match s with
      | c :: _ => if cl c then some 1 else none
      | [] => none

/-- The optional quote (`['\"]?`). -/
def optQuote (b : Bool) (s : List Char) : ℕ :=
  if b then
    match s with
    | c :: _ => if isQuoteChar c then 1 else 0
    | [] => 0
  else 0

/-- The optional `\s*` run. -/
def wsLen (skip : Bool) (s : List Char) : ℕ :=
  if skip then (s.takeWhile isWsChar).length else 0

/-- Length of the leftmost-first match of `p` at the head of `s` (if any). -/
def matchLen (p : SPattern) (s : List Char) : Option ℕ :=
  match p.alts.find? (fun a => a.isPrefixOf s) with
  | none => none
  | some a =>
      let s1 := s.drop a.length
      match sepCheck p.sep s1 with
      | none => none
      | some k =>
          let s2 := s1.drop k
          let w := wsLen p.skip s2
          let s3 := s2.drop w
          let q1 := optQuote p.openQ s3
          let s4 := s3.drop q1
          let v := (s4.takeWhile p.valClass).length
          if v < p.valMin then none
          else
            let s5 := s4.drop v
            some (a.length + k + w + q1 + v + optQuote p.closeQ s5)

/-- `sk-[a-zA-Z0-9]{20,}`. -/
def skPat : SPattern :=
  ⟨["sk-".toList], none, false, false, isAlnumAscii, 20, false⟩

/-- `key-[a-zA-Z0-9]{20,}`. -/
def keyPat : SPattern :=
  ⟨["key-".toList], none, false, false, isAlnumAscii, 20, false⟩

/-- `api[_-]?key[=:]\s*['\"]?[a-zA-Z0-9_-]+['\"]?` (the `[_-]?` expanded
into literal alternatives). -/
def apiKeyPat : SPattern :=
  ⟨["api_key".toList, "api-key".toList, "apikey".toList],
    some (fun c => c = '=' || c = ':'), true, true,
    (fun c => isAlnumAscii c || c = '_' || c = '-'), 1, true⟩

/-- `ANTHROPIC_API_KEY=[^\s]+`. -/
def anthropicPat : SPattern :=
  ⟨["ANTHROPIC_API_KEY=".toList], none, false, false,
    (fun c => !isWsChar c), 1, false⟩

/-- `OPENAI_API_KEY=[^\s]+`. -/
def openaiPat : SPattern :=
  ⟨["OPENAI_API_KEY=".toList], none, false, false,
    (fun c => !isWsChar c), 1, false⟩

/-- `(password|secret|token)[=:]\s*['\"]?[^\s'\"]+['\"]?`. -/
def genericPat : SPattern :=
  ⟨["password".toList, "secret".toList, "token".toList],
    some (fun c => c = '=' || c = ':'), true, true,
    (fun c => !isWsChar c && !isQuoteChar c), 1, true⟩

/-- The replacement text. -/
def redactedChars : List Char := "[REDACTED]".toList

/-- One `replace_all` pass: scan left to right; at a match, emit
`[REDACTED]` and resume after the match, otherwise copy one character.
Every pattern matches at least one character (`matchLen_pos` below), so
`rest.drop (n - 1)` is the input after the match. -/
def replAll (p : SPattern) : List Char → List Char
  | [] => []
  | c :: rest =>
      match matchLen p (c :: rest) with
      | some n => redactedChars ++ replAll p (rest.drop (n - 1))
      | none => c :: replAll p rest
termination_by l => l.length
decreasing_by
  · simp only [List.length_cons]
    have := List.length_drop (n - 1) rest
    omega
  · simp

/-- The six patterns of `security::sanitize_log`, in source order. -/
def secretPatterns : List SPattern :=
  [skPat, keyPat, apiKeyPat, anthropicPat, openaiPat, genericPat]

/-- Mirrors `security::sanitize_log`: the six `replace_all` passes applied
in order. -/
def sanitize_log (content : String) : String :=
  String.mk (secretPatterns.foldl (fun acc p => replAll p acc) content.toList)

/-- No match of `p` starts anywhere in `l`. -/
def NoMatch (p : SPattern) (l : List Char) : Prop :=
  ∀ q, matchLen p (l.drop q) = none

theorem matchLen_nil (p : SPattern) (hNE : ∀ a ∈ p.alts, a ≠ []) :
    matchLen p [] = none := by
  unfold matchLen
  have hf : p.alts.find? (fun a => a.isPrefixOf ([] : List Char)) = none := by
    rw [List.find?_eq_none]
    intro a ha
    have := hNE a ha
    cases a with
    | nil => exact absurd rfl this
    | cons c rest => simp [List.isPrefixOf]
  rw [hf]

theorem matchLen_pos (p : SPattern) (hNE : ∀ a ∈ p.alts, a ≠ []) (s : List Char) (n : ℕ)
    (h : matchLen p s = some n) : 1 ≤ n := by
  unfold matchLen at h
  cases hf : p.alts.find? (fun a => a.isPrefixOf s) with
  | none => rw [hf] at h; cases h
  | some a =>
      rw [hf] at h
      simp only at h
      cases hsep : sepCheck p.sep (s.drop a.length) with
      | none => rw [hsep] at h; cases h
      | some k =>
          rw [hsep] at h
          simp only at h
          split at h
          · cases h
          · injection h with h
            have ha : a ∈ p.alts := List.mem_of_find?_eq_some hf
            have hane : a ≠ [] := hNE a ha
            have : 0 < a.length := List.length_pos.mpr hane
            omega

/-- The relation between an input and the output of one `replace_all` pass:
characters are copied where no match starts, and every match is replaced by
`[REDACTED]`. -/
inductive ReplView (p : SPattern) : List Char → List Char → Prop
  | nil : ReplView p [] []
  | copy {c : Char} {s out : List Char} :
      matchLen p (c :: s) = none → ReplView p s out → ReplView p (c :: s) (c :: out)
  | redact {s out : List Char} {n : ℕ} :
      matchLen p s = some n → 1 ≤ n → ReplView p (s.drop n) out →
      ReplView p s (redactedChars ++ out)

theorem replAll_view (p : SPattern) (hNE : ∀ a ∈ p.alts, a ≠ []) :
    ∀ s, ReplView p s (replAll p s) := by
  have H : ∀ N s, List.length s ≤ N → ReplView p s (replAll p s) := by
    intro N
    induction N with
    | zero =>
        intro s hs
        have hnil : s = [] := by
          cases s with
          | nil => rfl
          | cons c rest => simp at hs
        subst hnil
        simp only [replAll]
        exact .nil
    | succ N ih =>
        intro s hs
        cases s with
        | nil =>
            simp only [replAll]
            exact .nil
        | cons c rest =>
            simp only [replAll]
            cases hm : matchLen p (c :: rest) with
            | none =>
                exact .copy hm (ih rest (by simp at hs; omega))
            | some n =>
                have hn1 : 1 ≤ n := matchLen_pos p hNE _ n hm
                refine .redact hm hn1 ?_
                have hdrop : (c :: rest).drop n = rest.drop (n - 1) := by
                  cases n with
                  | zero => omega
                  | succ m => simp
                rw [hdrop]
                refine ih (rest.drop (n - 1)) ?_
                have := List.length_drop (n - 1) rest
                simp at hs
                omega
  intro s
  exact H s.length s le_rfl

theorem letter_not_ws (c : Char) (h : isAsciiLetter c = true) : isWsChar c = false := by
  by_contra hws
  have hws2 : isWsChar c = true := by revert hws; cases isWsChar c <;> simp
  unfold isWsChar at hws2
  simp only [Bool.or_eq_true, decide_eq_true_eq] at hws2
  rcases hws2 with ((((rfl | rfl) | rfl) | rfl) | rfl) | rfl <;> exact absurd h (by decide)

theorem letter_not_quote (c : Char) (h : isAsciiLetter c = true) : isQuoteChar c = false := by
  by_contra hq
  have hq2 : isQuoteChar c = true := by revert hq; cases isQuoteChar c <;> simp
  unfold isQuoteChar at hq2
  simp only [Bool.or_eq_true, decide_eq_true_eq] at hq2
  rcases hq2 with rfl | rfl <;> exact absurd h (by decide)

/-- A successful match starts with a letter (the head of the matched
alternative). -/
theorem matchLen_head_letter (p : SPattern)
    (hStart : ∀ a ∈ p.alts, ∃ c a2, a = c :: a2 ∧ isAsciiLetter c = true)
    (s : List Char) (n : ℕ) (h : matchLen p s = some n) :
    ∃ c s2, s = c :: s2 ∧ isAsciiLetter c = true := by
  unfold matchLen at h
  cases hf : p.alts.find? (fun a => a.isPrefixOf s) with
  | none => rw [hf] at h; cases h
  | some a =>
      have hpre : a.isPrefixOf s = true := by
        have h2 := List.find?_some hf
        exact h2
      have hmem : a ∈ p.alts := List.mem_of_find?_eq_some hf
      obtain ⟨c, a2, rfl, hc⟩ := hStart a hmem
      obtain ⟨tl, htl⟩ := List.isPrefixOf_iff_prefix.mp hpre
      exact ⟨c, a2 ++ tl, by rw [← htl]; simp, hc⟩

/-- Reading a bracket-free literal through the view keeps both sides in
lock step. -/
theorem lit_sync (pk : SPattern) :
    ∀ (a : List Char), '[' ∉ a →
      ∀ u v, ReplView pk u v → a.isPrefixOf v = true →
        a.isPrefixOf u = true ∧ ReplView pk (u.drop a.length) (v.drop a.length) := by
  intro a
  induction a with
  | nil =>
      intro _ u v hview _
      exact ⟨by simp [List.isPrefixOf], by simpa using hview⟩
  | cons c a2 ih =>
      intro hbr u v hview hpre
      cases hview with
      | nil => simp [List.isPrefixOf] at hpre
      | copy hnone hview2 =>
          rename_i c0 s out
          simp only [List.isPrefixOf, Bool.and_eq_true, beq_iff_eq] at hpre
          obtain ⟨rfl, hpre2⟩ := hpre
          have hbr2 : '[' ∉ a2 := fun hmem => hbr (List.mem_cons_of_mem _ hmem)
          obtain ⟨hu, hview3⟩ := ih hbr2 s out hview2 hpre2
          refine ⟨?_, ?_⟩
          · simp [List.isPrefixOf, hu]
          · simpa using hview3
      | redact hm hn hview2 =>
          have hc : c = '[' := by
            simp only [redactedChars] at hpre
            simp only [List.isPrefixOf, Bool.and_eq_true, beq_iff_eq] at hpre
            exact hpre.1
          subst hc
          exact absurd (List.mem_cons_self _ _) hbr

/-- Whitespace runs agree across the view (insertions start with a bracket,
and a match in the input starts with a letter). -/
theorem ws_sync (pk : SPattern)
    (hkStart : ∀ a ∈ pk.alts, ∃ c a2, a = c :: a2 ∧ isAsciiLetter c = true) :
    ∀ u v, ReplView pk u v →
      (v.takeWhile isWsChar).length = (u.takeWhile isWsChar).length ∧
      ReplView pk (u.drop ((v.takeWhile isWsChar).length))
        (v.drop ((v.takeWhile isWsChar).length)) := by
  intro u v hview
  induction hview with
  | nil => exact ⟨rfl, .nil⟩
  | @copy c s out hnone hview2 ih =>
      by_cases hc : isWsChar c = true
      · rw [List.takeWhile_cons, if_pos hc]
        obtain ⟨ihl, ihv⟩ := ih
        refine ⟨?_, ?_⟩
        · rw [List.takeWhile_cons, if_pos hc]
          simp [ihl]
        · simpa using ihv
      · rw [List.takeWhile_cons, if_neg hc]
        refine ⟨?_, ?_⟩
        · rw [List.takeWhile_cons, if_neg hc]
        · exact .copy hnone hview2
  | @redact s out n hm hn hview2 ih =>
      obtain ⟨c, s2, rfl, hc⟩ := matchLen_head_letter pk hkStart _ n hm
      have hv : (redactedChars ++ out).takeWhile isWsChar = [] := by
        simp only [redactedChars]
        rw [show ("[REDACTED]".toList ++ out) = '[' :: ("REDACTED]".toList ++ out) from rfl]
        rw [List.takeWhile_cons, if_neg (by decide)]
      rw [hv]
      refine ⟨?_, ?_⟩
      · rw [List.takeWhile_cons, if_neg (by simp [letter_not_ws c hc])]
      · exact .redact hm hn hview2

/-- The optional-quote decision agrees across the view. -/
theorem quote_sync (pk : SPattern)
    (hkStart : ∀ a ∈ pk.alts, ∃ c a2, a = c :: a2 ∧ isAsciiLetter c = true) :
    ∀ u v, ReplView pk u v →
      optQuote true v = optQuote true u ∧
      ReplView pk (u.drop (optQuote true v)) (v.drop (optQuote true v)) := by
  intro u v hview
  cases hview with
  | nil => exact ⟨rfl, .nil⟩
  | @copy c s out hnone hview2 =>
      by_cases hc : isQuoteChar c = true
      · refine ⟨by simp [optQuote, hc], ?_⟩
        simpa [optQuote, hc] using hview2
      · refine ⟨by simp [optQuote, hc], ?_⟩
        have h0 : optQuote true (c :: out) = 0 := by simp [optQuote, hc]
        rw [h0]
        exact .copy hnone hview2
  | @redact s out n hm hn hview2 =>
      obtain ⟨c, s2, heq, hc⟩ := matchLen_head_letter pk hkStart _ n hm
      have hbq : isQuoteChar '[' = false := by decide
      have hv : optQuote true (redactedChars ++ out) = 0 := by
        simp only [redactedChars]
        rw [show ("[REDACTED]".toList ++ out) = '[' :: ("REDACTED]".toList ++ out) from rfl]
        simp [optQuote, hbq]
      have hu : optQuote true u = 0 := by
        rw [heq]
        simp [optQuote, letter_not_quote c hc]
      rw [hv, hu]
      exact ⟨rfl, .redact hm hn hview2⟩

/-- A required separator character is always a copied character. -/
theorem sep_sync (pk : SPattern)
    (cl : Char → Bool) (hcl : cl '[' = false) :
    ∀ u v c v2, ReplView pk u v → v = c :: v2 → cl c = true →
      ∃ u2, u = c :: u2 ∧ ReplView pk u2 v2 := by
  intro u v c v2 hview hv hc
  cases hview with
  | nil => cases hv
  | @copy c0 s out hnone hview2 =>
      injection hv with h1 h2
      subst h1 h2
      exact ⟨s, rfl, hview2⟩
  | @redact s out n hm hn hview2 =>
      exfalso
      have : c = '[' := by
        simp only [redactedChars] at hv
        rw [show ("[REDACTED]".toList ++ out) = '[' :: ("REDACTED]".toList ++ out) from rfl] at hv
        injection hv with h1 _
        exact h1.symm
      rw [this] at hc
      rw [hcl] at hc
      cases hc

/-- A greedy run over a bracket-free class can only grow from output to
input. -/
theorem run_le (pk : SPattern)
    (cl : Char → Bool) (hcl : cl '[' = false) :
    ∀ u v, ReplView pk u v → (v.takeWhile cl).length ≤ (u.takeWhile cl).length := by
  intro u v hview
  induction hview with
  | nil => simp
  | @copy c s out hnone hview2 ih =>
      by_cases hc : cl c = true
      · rw [List.takeWhile_cons, if_pos hc, List.takeWhile_cons, if_pos hc]
        simpa using ih
      · rw [List.takeWhile_cons, if_neg hc]
        simp
  | @redact s out n hm hn hview2 ih =>
      have hv : (redactedChars ++ out).takeWhile cl = [] := by
        simp only [redactedChars]
        rw [show ("[REDACTED]".toList ++ out) = '[' :: ("REDACTED]".toList ++ out) from rfl]
        rw [List.takeWhile_cons, if_neg (by simp [hcl])]
      rw [hv]
      simp

/-- A nonempty greedy run over a class containing all letters stays
nonempty from output to input. -/
theorem run_pos (pk : SPattern)
    (hkStart : ∀ a ∈ pk.alts, ∃ c a2, a = c :: a2 ∧ isAsciiLetter c = true)
    (cl : Char → Bool) (hletters : ∀ c, isAsciiLetter c = true → cl c = true) :
    ∀ u v, ReplView pk u v → 1 ≤ (v.takeWhile cl).length → 1 ≤ (u.takeWhile cl).length := by
  intro u v hview hrun
  cases hview with
  | nil => simp at hrun
  | @copy c s out hnone hview2 =>
      by_cases hc : cl c = true
      · rw [List.takeWhile_cons, if_pos hc]
        simp
      · rw [List.takeWhile_cons, if_neg hc] at hrun
        simp at hrun
  | @redact s out n hm hn hview2 =>
      obtain ⟨c, s2, heq, hc⟩ := matchLen_head_letter pk hkStart _ n hm
      rw [heq, List.takeWhile_cons, if_pos (hletters c hc)]
      simp

/-- The alternatives never collide with any tail of the replacement text. -/
def SCred (p : SPattern) : Prop :=
  ∀ a ∈ p.alts, ∀ q, q < redactedChars.length →
    ¬(a <+: redactedChars.drop q) ∧ ¬(redactedChars.drop q <+: a)

/-- Side conditions on a pattern viewed as the producer of a pass: all its
alternatives start with an ASCII letter. -/
def PatInOk (p : SPattern) : Prop :=
  ∀ a ∈ p.alts, ∃ c a2, a = c :: a2 ∧ isAsciiLetter c = true

/-- Side conditions on a pattern whose matches are transferred from the
output of a pass back to its input. -/
def PatOutOk (p : SPattern) : Prop :=
  (∀ a ∈ p.alts, '[' ∉ a) ∧
  (∀ a1 ∈ p.alts, ∀ a2 ∈ p.alts, a1 <+: a2 → a1 = a2) ∧
  (∀ cl, p.sep = some cl → cl '[' = false) ∧
  ((p.valClass '[' = false) ∨
    (p.valMin = 1 ∧ ∀ c, isAsciiLetter c = true → p.valClass c = true)) ∧
  SCred p

theorem patInOk_ne (p : SPattern) (h : PatInOk p) : ∀ a ∈ p.alts, a ≠ [] := by
  intro a ha
  obtain ⟨c, a2, rfl, _⟩ := h a ha
  simp

theorem noMatch_nil (p : SPattern) (hNE : ∀ a ∈ p.alts, a ≠ []) : NoMatch p [] := by
  intro q
  rw [List.drop_nil]
  exact matchLen_nil p hNE

theorem noMatch_cons (p : SPattern) (c : Char) (l : List Char)
    (h : NoMatch p (c :: l)) : NoMatch p l := by
  intro q
  have h2 := h (q + 1)
  simpa using h2

theorem noMatch_drop (p : SPattern) (n : ℕ) (l : List Char)
    (h : NoMatch p l) : NoMatch p (l.drop n) := by
  intro q
  rw [List.drop_drop]
  exact h (n + q)

theorem matchLen_none_of_alts (p : SPattern) (s : List Char)
    (h : ∀ a ∈ p.alts, a.isPrefixOf s = false) : matchLen p s = none := by
  unfold matchLen
  have hf : p.alts.find? (fun a => a.isPrefixOf s) = none := by
    rw [List.find?_eq_none]
    intro a ha
    simp [h a ha]
  rw [hf]

theorem alt_not_prefix_red (a : List Char) (q : ℕ)
    (h1 : ¬(a <+: redactedChars.drop q)) (h2 : ¬(redactedChars.drop q <+: a))
    (out : List Char) : a.isPrefixOf (redactedChars.drop q ++ out) = false := by
  cases hb : a.isPrefixOf (redactedChars.drop q ++ out) with
  | false => rfl
  | true =>
      exfalso
      have hpa : a <+: redactedChars.drop q ++ out := List.isPrefixOf_iff_prefix.mp hb
      have hpr : redactedChars.drop q <+: redactedChars.drop q ++ out :=
        List.prefix_append _ _
      cases List.prefix_or_prefix_of_prefix hpa hpr with
      | inl h => exact h1 h
      | inr h => exact h2 h

theorem matchLen_red_none (p : SPattern) (hsc : SCred p) (q : ℕ)
    (hq : q < redactedChars.length) (out : List Char) :
    matchLen p (redactedChars.drop q ++ out) = none :=
  matchLen_none_of_alts p _ (fun a ha =>
    alt_not_prefix_red a q (hsc a ha q hq).1 (hsc a ha q hq).2 out)

theorem sep_sync_gen (pk : SPattern)
    (sep : Option (Char → Bool)) (hsep : ∀ cl, sep = some cl → cl '[' = false) :
    ∀ u v k, ReplView pk u v → sepCheck sep v = some k →
      sepCheck sep u = some k ∧ ReplView pk (u.drop k) (v.drop k) := by
  intro u v k hview hchk
  cases sep with
  | none =>
      unfold sepCheck at hchk
      injection hchk with hk
      subst hk
      exact ⟨rfl, by simpa using hview⟩
  | some cl =>
      cases v with
      | nil => simp [sepCheck] at hchk
      | cons c v2 =>
          simp only [sepCheck] at hchk
          by_cases hc : cl c = true
          · rw [if_pos hc] at hchk
            injection hchk with hk
            subst hk
            obtain ⟨u2, rfl, hview2⟩ :=
              sep_sync pk cl (hsep cl rfl) u (c :: v2) c v2 hview rfl hc
            refine ⟨?_, ?_⟩
            · simp [sepCheck, hc]
            · simpa using hview2
          · rw [if_neg hc] at hchk
            cases hchk

theorem wsLen_sync_gen (pk : SPattern) (hkStart : PatInOk pk) (b : Bool) :
    ∀ u v, ReplView pk u v →
      wsLen b v = wsLen b u ∧
      ReplView pk (u.drop (wsLen b v)) (v.drop (wsLen b v)) := by
  intro u v hview
  cases b with
  | false => exact ⟨rfl, by simpa [wsLen] using hview⟩
  | true =>
      obtain ⟨hl, hv⟩ := ws_sync pk hkStart u v hview
      exact ⟨by simpa [wsLen] using hl, by simpa [wsLen] using hv⟩

theorem quote_sync_gen (pk : SPattern) (hkStart : PatInOk pk) (b : Bool) :
    ∀ u v, ReplView pk u v →
      optQuote b v = optQuote b u ∧
      ReplView pk (u.drop (optQuote b v)) (v.drop (optQuote b v)) := by
  intro u v hview
  cases b with
  | false => exact ⟨rfl, by simpa [optQuote] using hview⟩
  | true => exact quote_sync pk hkStart u v hview

/-- A match of `p` at the head of the output of one `pk` replacement pass
transfers back to a match of `p` at the corresponding head of the input. -/
theorem matchLen_transfer (p pk : SPattern)
    (hkStart : PatInOk pk) (hOut : PatOutOk p)
    (u v : List Char) (hview : ReplView pk u v)
    (m : ℕ) (hm : matchLen p v = some m) :
    ∃ m2, matchLen p u = some m2 := by
  obtain ⟨hpBr, hpInc, hpSep, hval, _⟩ := hOut
  unfold matchLen at hm
  cases hf : p.alts.find? (fun a => a.isPrefixOf v) with
  | none => rw [hf] at hm; cases hm
  | some a =>
      rw [hf] at hm
      simp only at hm
      have hav : a.isPrefixOf v = true := by
        have h2 := List.find?_some hf
        exact h2
      have hamem : a ∈ p.alts := List.mem_of_find?_eq_some hf
      obtain ⟨hau, hview1⟩ := lit_sync pk a (hpBr a hamem) u v hview hav
      cases hsepv : sepCheck p.sep (v.drop a.length) with
      | none => rw [hsepv] at hm; cases hm
      | some k =>
          rw [hsepv] at hm
          simp only at hm
          obtain ⟨hsepu, hview2⟩ :=
            sep_sync_gen pk p.sep hpSep (u.drop a.length) (v.drop a.length) k hview1 hsepv
          obtain ⟨hwseq, hview3⟩ :=
            wsLen_sync_gen pk hkStart p.skip ((u.drop a.length).drop k)
              ((v.drop a.length).drop k) hview2
          obtain ⟨hqeq, hview4⟩ :=
            quote_sync_gen pk hkStart p.openQ _ _ hview3
          split at hm
          · cases hm
          · rename_i hge
            have hfu : p.alts.find? (fun x => x.isPrefixOf u) = some a := by
              cases hfu2 : p.alts.find? (fun x => x.isPrefixOf u) with
              | none =>
                  exfalso
                  rw [List.find?_eq_none] at hfu2
                  exact hfu2 a hamem hau
              | some a2 =>
                  have ha2 : a2.isPrefixOf u = true := by
                    have h2 := List.find?_some hfu2
                    exact h2
                  have ha2mem : a2 ∈ p.alts := List.mem_of_find?_eq_some hfu2
                  cases List.prefix_or_prefix_of_prefix
                      (List.isPrefixOf_iff_prefix.mp ha2)
                      (List.isPrefixOf_iff_prefix.mp hau) with
                  | inl h => rw [hpInc a2 ha2mem a hamem h]
                  | inr h => rw [← hpInc a hamem a2 ha2mem h]
            have hltu : ¬ ((((((u.drop a.length).drop k).drop
                (wsLen p.skip ((v.drop a.length).drop k))).drop
                (optQuote p.openQ (((v.drop a.length).drop k).drop
                  (wsLen p.skip ((v.drop a.length).drop k))))).takeWhile
                p.valClass).length < p.valMin) := by
              cases hval with
              | inl hclbr =>
                  have hle := run_le pk p.valClass hclbr _ _ hview4
                  omega
              | inr hY =>
                  obtain ⟨hmin1, hletters⟩ := hY
                  rw [hmin1] at hge ⊢
                  have hpos := run_pos pk hkStart p.valClass hletters _ _ hview4
                    (by omega)
                  omega
            cases hml : matchLen p u with
            | some m2 => exact ⟨m2, rfl⟩
            | none =>
                exfalso
                unfold matchLen at hml
                rw [hfu] at hml
                simp only at hml
                rw [hsepu] at hml
                simp only at hml
                rw [← hwseq, ← hqeq] at hml
                rw [if_neg hltu] at hml
                cases hml

/-- One pass of a pattern over any input leaves no match of that same
pattern in the output. -/
theorem view_self (p : SPattern) (hIn : PatInOk p) (hOut : PatOutOk p) :
    ∀ u v, ReplView p u v → NoMatch p v := by
  intro u v hview
  induction hview with
  | nil => exact noMatch_nil p (patInOk_ne p hIn)
  | @copy c s out hnone hsub ih =>
      intro q
      cases q with
      | zero =>
          simp only [List.drop_zero]
          cases hq0 : matchLen p (c :: out) with
          | none => rfl
          | some m =>
              exfalso
              obtain ⟨m2, hm2⟩ := matchLen_transfer p p hIn hOut (c :: s) (c :: out)
                (.copy hnone hsub) m hq0
              rw [hnone] at hm2
              cases hm2
      | succ q2 =>
          have h2 := ih q2
          simpa using h2
  | @redact s out n hm hn hsub ih =>
      intro j
      rw [List.drop_append_eq_append_drop]
      by_cases hj : j < redactedChars.length
      · have hz : j - redactedChars.length = 0 := by omega
        rw [hz, List.drop_zero]
        exact matchLen_red_none p hOut.2.2.2.2 j hj out
      · have hnil : redactedChars.drop j = [] := List.drop_eq_nil_of_le (by omega)
        rw [hnil, List.nil_append]
        exact ih (j - redactedChars.length)

/-- A pass of pattern `pk` preserves the absence of matches of `p`. -/
theorem view_preserve (p pk : SPattern) (hkIn : PatInOk pk) (hOut : PatOutOk p) :
    ∀ u v, ReplView pk u v → NoMatch p u → NoMatch p v := by
  intro u v hview
  induction hview with
  | nil => intro h; exact h
  | @copy c s out hnone hsub ih =>
      intro hnm q
      cases q with
      | zero =>
          simp only [List.drop_zero]
          cases hq0 : matchLen p (c :: out) with
          | none => rfl
          | some m =>
              exfalso
              obtain ⟨m2, hm2⟩ := matchLen_transfer p pk hkIn hOut (c :: s) (c :: out)
                (.copy hnone hsub) m hq0
              have h0 := hnm 0
              rw [List.drop_zero] at h0
              rw [h0] at hm2
              cases hm2
      | succ q2 =>
          have h2 := ih (noMatch_cons p c s hnm) q2
          simpa using h2
  | @redact s out n hm hn hsub ih =>
      intro hnm j
      rw [List.drop_append_eq_append_drop]
      by_cases hj : j < redactedChars.length
      · have hz : j - redactedChars.length = 0 := by omega
        rw [hz, List.drop_zero]
        exact matchLen_red_none p hOut.2.2.2.2 j hj out
      · have hnil : redactedChars.drop j = [] := List.drop_eq_nil_of_le (by omega)
        rw [hnil, List.nil_append]
        exact ih (noMatch_drop p n s hnm) (j - redactedChars.length)

theorem patInOk_of_all (p : SPattern)
    (h : p.alts.all
      (fun a => match a with | c :: _ => isAsciiLetter c | [] => false) = true) :
    PatInOk p := by
  intro a ha
  have h2 := List.all_eq_true.mp h a ha
  cases a with
  | nil => simp at h2
  | cons c a2 => exact ⟨c, a2, rfl, h2⟩

theorem skPat_in : PatInOk skPat := patInOk_of_all skPat (by decide)

theorem keyPat_in : PatInOk keyPat := patInOk_of_all keyPat (by decide)

theorem apiKeyPat_in : PatInOk apiKeyPat := patInOk_of_all apiKeyPat (by decide)

theorem anthropicPat_in : PatInOk anthropicPat := patInOk_of_all anthropicPat (by decide)

theorem openaiPat_in : PatInOk openaiPat := patInOk_of_all openaiPat (by decide)

theorem genericPat_in : PatInOk genericPat := patInOk_of_all genericPat (by decide)

theorem skPat_out : PatOutOk skPat := by
  refine ⟨by decide, by decide, ?_, ?_, by unfold SCred; decide⟩
  · intro cl h
    simp [skPat] at h
  · left
    decide

theorem keyPat_out : PatOutOk keyPat := by
  refine ⟨by decide, by decide, ?_, ?_, by unfold SCred; decide⟩
  · intro cl h
    simp [keyPat] at h
  · left
    decide

theorem apiKeyPat_out : PatOutOk apiKeyPat := by
  refine ⟨by decide, by decide, ?_, ?_, by unfold SCred; decide⟩
  · intro cl h
    dsimp only [apiKeyPat] at h
    injection h with h2
    subst h2
    decide
  · left
    decide

theorem anthropicPat_out : PatOutOk anthropicPat := by
  refine ⟨by decide, by decide, ?_, ?_, by unfold SCred; decide⟩
  · intro cl h
    simp [anthropicPat] at h
  · right
    refine ⟨by decide, ?_⟩
    intro c hc
    show (!isWsChar c) = true
    rw [letter_not_ws c hc]
    decide

theorem openaiPat_out : PatOutOk openaiPat := by
  refine ⟨by decide, by decide, ?_, ?_, by unfold SCred; decide⟩
  · intro cl h
    simp [openaiPat] at h
  · right
    refine ⟨by decide, ?_⟩
    intro c hc
    show (!isWsChar c) = true
    rw [letter_not_ws c hc]
    decide

theorem genericPat_out : PatOutOk genericPat := by
  refine ⟨by decide, by decide, ?_, ?_, by unfold SCred; decide⟩
  · intro cl h
    dsimp only [genericPat] at h
    injection h with h2
    subst h2
    decide
  · right
    refine ⟨by decide, ?_⟩
    intro c hc
    show (!isWsChar c && !isQuoteChar c) = true
    rw [letter_not_ws c hc, letter_not_quote c hc]
    decide

theorem foldl_preserve (p : SPattern) (hpOut : PatOutOk p) :
    ∀ (qs : List SPattern), (∀ q ∈ qs, PatInOk q) →
      ∀ l, NoMatch p l → NoMatch p (qs.foldl (fun acc q => replAll q acc) l) := by
  intro qs
  induction qs with
  | nil => intro _ l h; exact h
  | cons q qs2 ih =>
      intro hIn l h
      rw [List.foldl_cons]
      exact ih (fun x hx => hIn x (List.mem_cons_of_mem q hx)) (replAll q l)
        (view_preserve p q (hIn q (List.mem_cons_self q qs2)) hpOut l (replAll q l)
          (replAll_view q (patInOk_ne q (hIn q (List.mem_cons_self q qs2))) l) h)

theorem foldl_noMatch (p : SPattern) (hpIn : PatInOk p) (hpOut : PatOutOk p) :
    ∀ (qs : List SPattern), (∀ q ∈ qs, PatInOk q) → p ∈ qs →
      ∀ l, NoMatch p (qs.foldl (fun acc q => replAll q acc) l) := by
  intro qs
  induction qs with
  | nil => intro _ hp; cases hp
  | cons q qs2 ih =>
      intro hIn hp l
      rw [List.foldl_cons]
      cases hp with
      | head =>
          exact foldl_preserve p hpOut qs2
            (fun x hx => hIn x (List.mem_cons_of_mem p hx)) (replAll p l)
            (view_self p hpIn hpOut l (replAll p l)
              (replAll_view p (patInOk_ne p hpIn) l))
      | tail _ hp2 =>
          exact ih (fun x hx => hIn x (List.mem_cons_of_mem q hx)) hp2 (replAll q l)

/-- C8: for every input string `x`, the output of `sanitize_log x` contains
no substring matching any of the six configured secret patterns
(`sk-`/`key-` tokens of 20 or more alphanumerics, `api[_-]?key`
assignments, `ANTHROPIC_API_KEY=`/`OPENAI_API_KEY=` assignments, and
generic `password`/`secret`/`token` assignments): at every start position
of the result, none of the compiled patterns matches. -/
theorem sanitize_log_no_secret (x : String) :
    NoMatch skPat ((sanitize_log x).toList) ∧
    NoMatch keyPat ((sanitize_log x).toList) ∧
    NoMatch apiKeyPat ((sanitize_log x).toList) ∧
    NoMatch anthropicPat ((sanitize_log x).toList) ∧
    NoMatch openaiPat ((sanitize_log x).toList) ∧
    NoMatch genericPat ((sanitize_log x).toList) := by
  have hIn : ∀ q ∈ secretPatterns, PatInOk q := by
    intro q hq
    simp only [secretPatterns, List.mem_cons, List.not_mem_nil, or_false] at hq
    rcases hq with rfl | rfl | rfl | rfl | rfl | rfl
    · exact skPat_in
    · exact keyPat_in
    · exact apiKeyPat_in
    · exact anthropicPat_in
    · exact openaiPat_in
    · exact genericPat_in
  have hT : (sanitize_log x).toList =
      secretPatterns.foldl (fun acc q => replAll q acc) x.toList := rfl
  refine ⟨?_, ?_, ?_, ?_, ?_, ?_⟩ <;> rw [hT]
  · exact foldl_noMatch skPat skPat_in skPat_out secretPatterns hIn
      (by simp [secretPatterns]) x.toList
  · exact foldl_noMatch keyPat keyPat_in keyPat_out secretPatterns hIn
      (by simp [secretPatterns]) x.toList
  · exact foldl_noMatch apiKeyPat apiKeyPat_in apiKeyPat_out secretPatterns hIn
      (by simp [secretPatterns]) x.toList
  · exact foldl_noMatch anthropicPat anthropicPat_in anthropicPat_out secretPatterns hIn
      (by simp [secretPatterns]) x.toList
  · exact foldl_noMatch openaiPat openaiPat_in openaiPat_out secretPatterns hIn
      (by simp [secretPatterns]) x.toList
  · exact foldl_noMatch genericPat genericPat_in genericPat_out secretPatterns hIn
      (by simp [secretPatterns]) x.toList

end Ralph